import Mathlib

/-!
Trajectory sampler (`listings/sampler.go`): time-bucketed resampling.

A shallow embedding of the Go package `sampler` and a verification of its
time resampling (`resampleTime`, `roundTime`, `getTimeIntervals`).

Modelling conventions.

* A `geom.Coord` is a `[]float64`; here it is a list of integers: the model
  covers the ordinates that are integer-valued floats (x, y and the unix
  timestamp in seconds).  The conversion `int64(coords[i][2])` is `int64`.
* The functions of package `time` that `roundTime` and `getTimeIntervals` call
  (`time.Unix`, `Time.Round` with `div`, `lessThanHalf`, `Time.Add`, `addSec`,
  and the minute that `Time.Format` prints) are embedded with their `int64`
  and `uint64` arithmetic: `time.Unix` wraps around, `addSec` saturates.
* A `time.Time` that carries no monotonic clock reading and whose location is
  UTC is the pair of its seconds since the zero time (January 1, year 1,
  00:00:00 UTC; the field `ext`) and its nanoseconds within the second; it is
  represented by the number `ext * 10^9 + nsec`, on which `==` and `Before`
  are `=` and `<`.
* `time.Duration` is an `int64` count of nanoseconds; the product
  `time.Duration(s.SampleRate) * time.Hour` is taken modulo `2^64`.
* A Go run-time panic is an error: `Error.indexOutOfRange` for an out-of-range
  index, `Error.lenOutOfRange` for a slice made with a negative length.
* The decoders, encoders and the interpolation routine of the geometry
  libraries are parameters (`Library`); the time resampling is verified on the
  decoded coordinates (`resampleTimeCoords`), before the result is marshalled.
-/

namespace Sampler

/-- Errors of the package, and the run-time panics. -/
inductive Error where
  /-- "specify either WKTTrajectory, or WKBHexTrajectory" -/
  | missingInput
  /-- "geometry was not a valid linestring" -/
  | notLineString
  /-- "metric was not specified to a valid metric" -/
  | invalidMetric
  /-- "too few points in sampled trajectory" -/
  | tooFewPoints
  /-- go-geom: `ErrStrideMismatch`, returned by `SetCoords` -/
  | strideMismatch
  /-- an error returned by a decoder or encoder of the geometry libraries -/
  | external (msg : String)
  /-- run-time panic: index out of range -/
  | indexOutOfRange
  /-- run-time panic: makeslice: len out of range -/
  | lenOutOfRange
  deriving DecidableEq, Repr

deriving instance DecidableEq for Except

/-- A `geom.Coord`: the ordinates of one position. -/
abbrev Coord := List Int

/-- A `time.Time` in UTC without monotonic reading: the number `ext * 10^9 + nsec` of its
seconds since the zero time (`ext`, an `int64`) and its nanoseconds within the second. -/
abbrev Time := Int

/-- A `time.Duration`: nanoseconds. -/
abbrev Duration := Int

/-- Two's complement wrap-around of a 64-bit signed integer. -/
def wrap64 (n : Int) : Int := (n + 2 ^ 63) % 2 ^ 64 - 2 ^ 63

/-- The conversion `uint64(n)` of a 64-bit signed integer. -/
def toUint64 (n : Int) : Int := n % 2 ^ 64

/-- The conversion `int64(f)` of a float64 ordinate.  An integer-valued ordinate within the
range of `int64` is converted to itself; outside that range the result is
implementation-dependent in Go and is taken as on amd64, the smallest `int64`. -/
def int64 (z : Int) : Int := if -2 ^ 63 ≤ z ∧ z < 2 ^ 63 then z else -2 ^ 63

/-- The constant `time.Second`. -/
def Second : Duration := 1000000000

/-- The constant `time.Hour`. -/
def Hour : Duration := 3600 * Second

/-- The constant `unixToInternal` of package `time`: seconds from the zero time to the
unix epoch. -/
def unixToInternal : Int := 62135596800

/-- The constant `internalToAbsolute` of package `time`: seconds from the absolute zero
year (-292277022399) to the zero time. -/
def internalToAbsolute : Int := 9223371966579724800

/-- The method `Time.sec`: seconds since the zero time. -/
def Time.sec (t : Time) : Int := t / Second

/-- The method `Time.nsec`: nanoseconds within the second. -/
def Time.nsec (t : Time) : Int := t % Second

/-- The function `time.Unix(sec, 0).UTC()`: the seconds `sec + unixToInternal`, added in
`int64`, and no nanoseconds. -/
def Unix (sec : Int) : Time := wrap64 (sec + unixToInternal) * Second

/-- The method `Time.addSec`: `sum := t.ext + d` in `int64`, kept when
`(sum > t.ext) == (d > 0)`, and otherwise saturated to `1<<63 - 1` or `-(1<<63 - 1)`. -/
def Time.addSec (ext d : Int) : Int :=
  let sum := wrap64 (ext + d)
  if decide (sum > ext) = decide (d > 0) then sum
  else if d > 0 then 2 ^ 63 - 1
  else -(2 ^ 63 - 1)

/-- The method `Time.Add`: `dsec := d / 1e9` and `nsec := t.nsec() + d % 1e9` (truncated
division), the nanoseconds brought back into the second, and `addSec`. -/
def Time.Add (t : Time) (d : Duration) : Time :=
  let dsec := Int.tdiv d 1000000000
  let nsec := Time.nsec t + Int.tmod d 1000000000
  if nsec ≥ 1000000000 then Time.addSec (Time.sec t) (dsec + 1) * Second + (nsec - 1000000000)
  else if nsec < 0 then Time.addSec (Time.sec t) (dsec - 1) * Second + (nsec + 1000000000)
  else Time.addSec (Time.sec t) dsec * Second + nsec

/-- The function `div` of package `time`, for its remainder `r` (`d` is positive): a
negative time is replaced by its absolute value, the remainder is taken in one of three
ways (`2d` divides a second; `d` is a multiple of a second; the general case on the
128-bit number of nanoseconds, with `uint64(sec)`), and for a negative time a non-zero `r`
is replaced by `d - r`. -/
def Time.div (t : Time) (d : Duration) : Duration :=
  let neg : Bool := decide (Time.sec t < 0)
  let sec0 := if neg then wrap64 (-(Time.sec t)) else Time.sec t
  let nsec0 := if neg then -(Time.nsec t) else Time.nsec t
  let sec1 := if nsec0 < 0 then wrap64 (sec0 - 1) else sec0
  let nsec1 := if nsec0 < 0 then nsec0 + 1000000000 else nsec0
  let r :=
    if d < Second ∧ Int.tmod Second (d + d) = 0 then Int.tmod nsec1 d
    else if Int.tmod d Second = 0 then
      wrap64 (wrap64 (Int.tmod sec1 (Int.tdiv d Second) * Second) + nsec1)
    else (toUint64 sec1 * Second + nsec1) % d
  if neg = true ∧ r ≠ 0 then wrap64 (d - r) else r

/-- The function `lessThanHalf(x, y)`: `uint64(x) + uint64(x) < uint64(y)`. -/
def lessThanHalf (x y : Duration) : Bool :=
  decide (toUint64 (toUint64 x + toUint64 x) < toUint64 y)

/-- The method `Time.Round(d)`: `t` unchanged when `d <= 0`; otherwise with `r` the
remainder of `div(t, d)`, `t.Add(-r)` when `lessThanHalf(r, d)` and `t.Add(d - r)`
otherwise. -/
def Round (t : Time) (d : Duration) : Time :=
  if d ≤ 0 then t
  else
    let r := Time.div t d
    if lessThanHalf r d then Time.Add t (wrap64 (-r)) else Time.Add t (wrap64 (d - r))

/-- The method `roundTime`, with `s.SampleRate` as `rate`. -/
def roundTime (rate : Int) (ts : Int) : Time :=
  Round (Unix ts) (wrap64 (rate * Hour))

/-- The key `rounded.Format("2006.01.02:15:04")`: year, month, day, hour and minute of
a UTC time, which `Format` derives from `abs()`, the seconds since the absolute zero year
as a `uint64`.  Two times have the same key exactly when their `abs()` lie in the same
minute, so the key is represented by the index of that minute. -/
def Format (t : Time) : Int := toUint64 (Time.sec t + internalToAbsolute) / 60

/-- The assignment `times[key] = value` on a Go map, kept as an association list. -/
def mapSet (times : List (Int × Time)) (key : Int) (value : Time) : List (Int × Time) :=
  match times with
  | [] => [(key, value)]
  | (k, v) :: rest =>
    if k = key then (key, value) :: rest else (k, v) :: mapSet rest key value

/-- The index expression `coord[i]`, which panics when out of range. -/
def index {α : Type} (xs : List α) (i : Nat) : Except Error α :=
  match xs[i]? with
  | some x => .ok x
  | none => .error .indexOutOfRange

/-- First loop of `getTimeIntervals`: fills the map `times`. -/
def collectTimes (rate : Int) : List Coord → List (Int × Time) → Except Error (List (Int × Time))
  | [], times => .ok times
  | coord :: rest, times =>
    match index coord 2 with
    | .error e => .error e
    | .ok z =>
      let rounded := roundTime rate (int64 z)
      collectTimes rate rest (mapSet times (Format rounded) rounded)

/-- The call `sort.Slice(ret, func(i, j) { return ret[i].Before(ret[j]) })`: ascending
order. -/
def sortTimes (ret : List Time) : List Time := ret.insertionSort (· ≤ ·)

/-- The method `getTimeIntervals` on the coordinates of the trajectory.  The values of
the map are collected in an unspecified order and then sorted; `sortTimes` gives the same
list for every order of its argument. -/
def getTimeIntervals (rate : Int) (coords : List Coord) : Except Error (List Time) :=
  match collectTimes rate coords [] with
  | .error e => .error e
  | .ok times => .ok (sortTimes (times.map Prod.snd))

/-- The method `Coord.Equal(layout, other)` of go-geom, `stride` being `layout.Stride()`:
the first `min(len(c), stride)` ordinates are compared, and two coordinates of different
lengths, one of them shorter than the stride, are unequal. -/
def Equal (stride : Nat) (c other : Coord) : Bool :=
  let numOrds := if stride < c.length then stride else c.length
  if (c.length < stride ∨ other.length < stride) ∧ c.length ≠ other.length then false
  else decide (c.take numOrds = other.take numOrds)

/-- Inner loop of `resampleTime` (`for i := range coords`): the first coordinate whose
rounded time is `interval`, `none` standing for `first == nil`. -/
def findFirst (rate : Int) (interval : Time) : List Coord → Except Error (Option Coord)
  | [] => .ok none
  | coord :: rest =>
    match index coord 2 with
    | .error e => .error e
    | .ok z =>
      if roundTime rate (int64 z) = interval then .ok (some coord)
      else findFirst rate interval rest

/-- Outer loop of `resampleTime` (`for _, interval := range intervals`), started with
`reducedCoords = []`. -/
def reduceCoords (rate : Int) (coords : List Coord) :
    List Time → List Coord → Except Error (List Coord)
  | [], reducedCoords => .ok reducedCoords
  | interval :: rest, reducedCoords =>
    match findFirst rate interval coords with
    | .error e => .error e
    | .ok (some first) => reduceCoords rate coords rest (reducedCoords ++ [first])
    | .ok none => reduceCoords rate coords rest reducedCoords

/-- The endpoint step of `resampleTime`: the last coordinate of the input is appended
unless `lastReduced.Equal(geom.XYZ, coords[len(coords)-1])`.  On an empty slice the index
`len - 1` is out of range. -/
def addLast (reducedCoords coords : List Coord) : Except Error (List Coord) :=
  match index reducedCoords (reducedCoords.length - 1) with
  | .error e => .error e
  | .ok lastReduced =>
    match index coords (coords.length - 1) with
    | .error e => .error e
    | .ok last =>
      if !Equal 3 lastReduced last then .ok (reducedCoords ++ [last])
      else .ok reducedCoords

/-- The call `geom.NewLineString(layout).SetCoords(coords)` of go-geom: every coordinate
must have exactly `layout.Stride()` ordinates. -/
def SetCoords (stride : Nat) (coords : List Coord) : Except Error (List Coord) :=
  if coords.all (fun c => c.length == stride) then .ok coords else .error .strideMismatch

/-- The sequence `reducedCoords` of `resampleTime` after the endpoint step. -/
def reducedWithLast (rate : Int) (coords : List Coord) : Except Error (List Coord) :=
  match getTimeIntervals rate coords with
  | .error e => .error e
  | .ok intervals =>
    match reduceCoords rate coords intervals [] with
    | .error e => .error e
    | .ok reducedCoords => addLast reducedCoords coords

/-- The method `resampleTime` from the decoded coordinates `trajectory.Coords()` to the
coordinates of the line string that is marshalled. -/
def resampleTimeCoords (rate : Int) (coords : List Coord) : Except Error (List Coord) :=
  match reducedWithLast rate coords with
  | .error e => .error e
  | .ok reducedCoords =>
    if reducedCoords.length ≤ 1 then .error .tooFewPoints
    else SetCoords 3 reducedCoords

/-- The struct `Instance`. -/
structure Instance where
  WKTTrajectory : String
  WKBHexTrajectory : String
  Metric : String
  SampleRate : Int

/-- A decoded `geom.T`: a `*geom.LineString` with its coordinates, or another geometry. -/
inductive Geometry where
  | lineString (coords : List Coord)
  | other

/-- The functions of the geometry libraries (go-geom and orb) that the package calls. -/
structure Library where
  /-- `ewkbhex.Decode` -/
  ewkbhexDecode : String → Except Error Geometry
  /-- `geomwkt.Unmarshal` -/
  wktUnmarshal : String → Except Error Geometry
  /-- `geomwkt.Marshal` of the line string with the given coordinates -/
  wktMarshal : List Coord → Except Error String
  /-- `resample.ToInterval(ls, geo.DistanceHaversine, float64(rate))`, which can panic -/
  toInterval : List (Int × Int) → Int → Except Error (List (Int × Int))
  /-- `wkt.MarshalString` of orb -/
  marshalString : List (Int × Int) → String

/-- The method `parse3DTrajectory`. -/
def parse3DTrajectory (lib : Library) (s : Instance) : Except Error (List Coord) :=
  if s.WKBHexTrajectory = "" ∧ s.WKTTrajectory = "" then .error .missingInput
  else
    match (if s.WKBHexTrajectory ≠ "" then lib.ewkbhexDecode s.WKBHexTrajectory
           else .ok Geometry.other) with
    | .error e => .error e
    | .ok fromWKB =>
      match (if s.WKTTrajectory ≠ "" then lib.wktUnmarshal s.WKTTrajectory
             else .ok fromWKB) with
      | .error e => .error e
      | .ok (.lineString coords) => .ok coords
      | .ok .other => .error .notLineString

/-- The loop of `parse2DTrajectory`: `orb.Point{c[0], c[1]}` for every coordinate. -/
def flatten : List Coord → Except Error (List (Int × Int))
  | [] => .ok []
  | c :: rest =>
    match index c 0, index c 1 with
    | .ok x, .ok y =>
      match flatten rest with
      | .ok points => .ok ((x, y) :: points)
      | .error e => .error e
    | _, _ => .error .indexOutOfRange

/-- The method `parse2DTrajectory`. -/
def parse2DTrajectory (lib : Library) (s : Instance) : Except Error (List (Int × Int)) :=
  match parse3DTrajectory lib s with
  | .error e => .error e
  | .ok coords => flatten coords

/-- The method `resampleDistance`. -/
def resampleDistance (lib : Library) (s : Instance) : Except Error String :=
  match parse2DTrajectory lib s with
  | .error e => .error e
  | .ok parsed =>
    match lib.toInterval parsed s.SampleRate with
    | .error e => .error e
    | .ok sampled => .ok (lib.marshalString sampled)

/-- The method `resampleTime`. -/
def resampleTime (lib : Library) (s : Instance) : Except Error String :=
  match parse3DTrajectory lib s with
  | .error e => .error e
  | .ok coords =>
    match resampleTimeCoords s.SampleRate coords with
    | .error e => .error e
    | .ok reducedCoords => lib.wktMarshal reducedCoords

/-- The method `Resample`. -/
def Resample (lib : Library) (s : Instance) : Except Error String :=
  if s.Metric = "distance" then resampleDistance lib s
  else if s.Metric = "time" then resampleTime lib s
  else .error .invalidMetric

/-- The timestamp of a position: its third ordinate `coord[2]`. -/
def timestamp (c : Coord) : Int := c.getD 2 0

/-- The Time Bucket of a position: `roundTime` of its timestamp. -/
def bucket (rate : Int) (c : Coord) : Time := roundTime rate (int64 (timestamp c))

/-! ## Specification vocabulary -/

/-- The map `times` after the assignments `times[Format b] = b` for the rounded times
`bs`, in order. -/
def setAll (times : List (Int × Time)) (bs : List Time) : List (Int × Time) :=
  bs.foldl (fun m b => mapSet m (Format b) b) times

/-- The first position of `coords`, in the order of the sequence, whose Time Bucket is
`interval`. -/
def firstIn (rate : Int) (coords : List Coord) (interval : Time) : Option Coord :=
  coords.find? (fun c => decide (bucket rate c = interval))

/-- The positions selected for the buckets `intervals`, in the order of `intervals`: the
first position of each bucket that has one. -/
def firsts (rate : Int) (coords : List Coord) (intervals : List Time) : List Coord :=
  intervals.filterMap (firstIn rate coords)

/-- Scenario A: five positions one hour apart, the first at the time `t0`. -/
def scenarioA (t0 x0 y0 x1 y1 x2 y2 x3 y3 x4 y4 : Int) : List Coord :=
  [[x0, y0, t0], [x1, y1, t0 + 3600], [x2, y2, t0 + 7200], [x3, y3, t0 + 10800],
    [x4, y4, t0 + 14400]]

/-- A decoder for the examples: `"LINE"` is the line string `(0,0,0), (1,1,3600)`,
`"ONE"` the line string of the single position `(5,5,0)`, `"EMPTY"` the line string without
positions, `"POINT"` a geometry that is no line string, and every other text is
rejected. -/
def exampleDecode (text : String) : Except Error Geometry :=
  if text = "LINE" then .ok (.lineString [[0, 0, 0], [1, 1, 3600]])
  else if text = "ONE" then .ok (.lineString [[5, 5, 0]])
  else if text = "EMPTY" then .ok (.lineString [])
  else if text = "POINT" then .ok .other
  else .error (.external "syntax error")

/-- An interpolation routine for the examples, which follows `resample.ToInterval` of orb
on the degenerate inputs: no line string for a distance `<= 0`, a panic
(`make([]float64, len(ls)-1)`) on the line string without points, and the line string
itself when it has one point; on longer line strings it returns its input. -/
def exampleToInterval (points : List (Int × Int)) (dist : Int) :
    Except Error (List (Int × Int)) :=
  if dist ≤ 0 then .ok []
  else if points = [] then .error .lenOutOfRange
  else .ok points

/-- A library for the examples: both decoders are `exampleDecode`, the interpolation
routine is `exampleToInterval`, and the encoders print the number of positions. -/
def exampleLibrary : Library :=
  ⟨exampleDecode, exampleDecode, fun coords => .ok (toString coords.length),
    exampleToInterval, fun points => toString points.length⟩

/-- The point `orb.Point{c[0], c[1]}` of a coordinate. -/
def point2D (c : Coord) : Int × Int := (c.getD 0 0, c.getD 1 0)

/-- Rounding to the nearest multiple of a positive duration, halfway cases up, without
any overflow: what `Round` computes while the seconds stay within `int64`. -/
def roundExact (t : Time) (d : Duration) : Time :=
  if d ≤ 0 then t
  else
    let r := t % d
    if r + r < d then t + -r else t + (d - r)

/-- The timestamps of the positions are of magnitude at most `2^62` seconds (about 146
billion years): for them `time.Unix` does not wrap around and `addSec` does not
saturate. -/
abbrev TimestampsInRange (coords : List Coord) : Prop :=
  ∀ c ∈ coords, -2 ^ 62 ≤ timestamp c ∧ timestamp c ≤ 2 ^ 62

/-- A map whose keys are distinct and whose values are stored under their own key. -/
def KeyedByFormat (times : List (Int × Time)) : Prop :=
  (times.map Prod.fst).Nodup ∧ ∀ p ∈ times, p.1 = Format p.2

/-- What `getTimeIntervals` returns for `coords`, for every rate: a strictly ascending
list of Time Buckets of the input, holding the bucket of the last position and, for
every position, a bucket of the same minute; no two of its buckets share a minute. -/
structure IsIntervals (rate : Int) (coords : List Coord) (intervals : List Time) : Prop where
  sorted : intervals.Sorted (· < ·)
  sound : ∀ v ∈ intervals, ∃ c ∈ coords, bucket rate c = v
  covers : ∀ c ∈ coords, ∃ v ∈ intervals, Format v = Format (bucket rate c)
  keyInj : ∀ v ∈ intervals, ∀ w ∈ intervals, Format v = Format w → v = w
  last : ∀ l, coords.getLast? = some l → bucket rate l ∈ intervals

/-- A run of `resampleTime` that reaches the endpoint step: the intervals found, the
positions `sel` selected by the loops (`reducedCoords` before the endpoint step), the last
selected position and the last position of the input. -/
structure Run (rate : Int) (coords : List Coord) (intervals : List Time) (sel : List Coord)
    (lastSel last : Coord) : Prop where
  wide : ∀ c ∈ coords, 2 < c.length
  intervals_eq : getTimeIntervals rate coords = .ok intervals
  isIntervals : IsIntervals rate coords intervals
  sel_eq : reduceCoords rate coords intervals [] = .ok sel
  buckets : sel.map (bucket rate) = intervals
  first : ∀ s ∈ sel, s ∈ coords ∧ firstIn rate coords (bucket rate s) = some s
  lastSel_eq : sel.getLast? = some lastSel
  last_eq : coords.getLast? = some last
  withLast : reducedWithLast rate coords =
    .ok (if Equal 3 lastSel last then sel else sel ++ [last])

/-! ## Rounding -/

theorem roundExact_of_nonpos (t : Time) (d : Duration) (h : d ≤ 0) : roundExact t d = t := by
  simp [roundExact, h]

/-- For a positive duration the result of `roundExact` is a multiple of the duration, at
most half a duration away from the argument, the halfway case going up. -/
theorem roundExact_of_pos (t : Time) (d : Duration) (h : 0 < d) :
    ∃ k : Int, roundExact t d = k * d ∧ -d < 2 * (roundExact t d - t) ∧
      2 * (roundExact t d - t) ≤ d := by
  have hr0 : 0 ≤ t % d := Int.emod_nonneg t (ne_of_gt h)
  have hr1 : t % d < d := Int.emod_lt_of_pos t h
  have hdiv : d * (t / d) + t % d = t := Int.ediv_add_emod t d
  have hnot : ¬ d ≤ 0 := not_le.mpr h
  by_cases hlt : t % d + t % d < d
  · refine ⟨t / d, ?_, ?_, ?_⟩
    · simp only [roundExact, hnot, if_false, hlt, if_true]
      linarith [mul_comm d (t / d)]
    · simp only [roundExact, hnot, if_false, hlt, if_true]
      linarith
    · simp only [roundExact, hnot, if_false, hlt, if_true]
      linarith
  · refine ⟨t / d + 1, ?_, ?_, ?_⟩
    · simp only [roundExact, hnot, if_false, hlt]
      linarith [mul_comm d (t / d)]
    · simp only [roundExact, hnot, if_false, hlt]
      linarith
    · simp only [roundExact, hnot, if_false, hlt]
      linarith

/-- Exact rounding is monotone in the time, for every duration. -/
theorem roundExact_mono (d : Duration) (t₁ t₂ : Time) (h : t₁ ≤ t₂) :
    roundExact t₁ d ≤ roundExact t₂ d := by
  rcases le_or_lt d 0 with hd | hd
  · rw [roundExact_of_nonpos t₁ d hd, roundExact_of_nonpos t₂ d hd]; exact h
  · obtain ⟨k₁, e₁, _, u₁⟩ := roundExact_of_pos t₁ d hd
    obtain ⟨k₂, e₂, l₂, _⟩ := roundExact_of_pos t₂ d hd
    by_contra hc
    have hc : roundExact t₂ d < roundExact t₁ d := not_le.mp hc
    have hk : k₂ < k₁ := by
      by_contra hk
      have hk : k₁ ≤ k₂ := not_lt.mp hk
      have : k₁ * d ≤ k₂ * d := mul_le_mul_of_nonneg_right hk (le_of_lt hd)
      linarith
    have hk' : k₂ + 1 ≤ k₁ := hk
    have : (k₂ + 1) * d ≤ k₁ * d := mul_le_mul_of_nonneg_right hk' (le_of_lt hd)
    have : k₂ * d + d ≤ k₁ * d := by linarith [add_mul k₂ 1 d, one_mul d]
    linarith

theorem wrap64_of_range (n : Int) (h1 : -2 ^ 63 ≤ n) (h2 : n < 2 ^ 63) : wrap64 n = n := by
  unfold wrap64
  omega

theorem wrap64_range (n : Int) : -2 ^ 63 ≤ wrap64 n ∧ wrap64 n < 2 ^ 63 := by
  unfold wrap64
  omega

theorem wrap64_rate_mul_Hour (rate : Int) (h0 : 0 < rate) (h1 : rate ≤ 2562047) :
    wrap64 (rate * Hour) = rate * Hour := by
  unfold wrap64 Hour Second
  omega

theorem int64_of_range (z : Int) (h1 : -2 ^ 62 ≤ z) (h2 : z ≤ 2 ^ 62) : int64 z = z := by
  unfold int64
  rw [if_pos]
  omega

theorem sec_mul_Second (e : Int) : Time.sec (e * Second) = e := by
  show (e * 1000000000 : Int) / 1000000000 = e
  omega

theorem nsec_mul_Second (e : Int) : Time.nsec (e * Second) = 0 := by
  show (e * 1000000000 : Int) % 1000000000 = 0
  omega

/-- Truncated division by `10^9`, in terms that linear arithmetic understands. -/
theorem tdiv_tmod_billion (x : Int) :
    x = 1000000000 * Int.tdiv x 1000000000 + Int.tmod x 1000000000 ∧
    (0 ≤ x → 0 ≤ Int.tmod x 1000000000 ∧ Int.tmod x 1000000000 < 1000000000) ∧
    (x < 0 → -1000000000 < Int.tmod x 1000000000 ∧ Int.tmod x 1000000000 ≤ 0) := by
  have hdef := Int.tmod_def x 1000000000
  refine ⟨by omega, ?_, ?_⟩
  · intro hx
    rw [Int.tmod_eq_emod hx (by decide)]
    omega
  · intro hx
    have hq : Int.tdiv x 1000000000 = -((-x) / 1000000000) := by
      have h1 : x = -(-x) := by omega
      rw [h1, Int.neg_tdiv, Int.tdiv_eq_ediv (by omega) (by decide)]
      simp
    rw [hdef, hq]
    omega

theorem addSec_exact (e dd : Int) (he1 : -(2 ^ 62 + 2 ^ 37) ≤ e) (he2 : e ≤ 2 ^ 62 + 2 ^ 37)
    (hd1 : -2 ^ 34 ≤ dd) (hd2 : dd ≤ 2 ^ 34) : Time.addSec e dd = e + dd := by
  unfold Time.addSec
  have hw : wrap64 (e + dd) = e + dd := wrap64_of_range _ (by omega) (by omega)
  simp only [hw]
  by_cases hpos : dd > 0
  · have h1 : e + dd > e := by omega
    simp [hpos, h1]
  · have h1 : ¬ e + dd > e := by omega
    simp [hpos, h1]

/-- The method `Time.Add` is exact on a whole second of magnitude up to `2^62 + 2^36`. -/
theorem Add_exact (e x : Int) (he1 : -(2 ^ 62 + 2 ^ 36) ≤ e) (he2 : e ≤ 2 ^ 62 + 2 ^ 36)
    (hx1 : -2 ^ 63 < x) (hx2 : x < 2 ^ 63) : Time.Add (e * Second) x = e * Second + x := by
  obtain ⟨hx, hnn, hneg⟩ := tdiv_tmod_billion x
  unfold Time.Add
  rw [sec_mul_Second, nsec_mul_Second]
  generalize Int.tdiv x 1000000000 = q at *
  generalize Int.tmod x 1000000000 = m at *
  simp only [zero_add]
  by_cases h0 : 0 ≤ x
  · obtain ⟨hm1, hm2⟩ := hnn h0
    rw [if_neg (by omega), if_neg (by omega),
      addSec_exact e q (by omega) (by omega) (by omega) (by omega)]
    show ((e + q) * 1000000000 + m : Int) = e * 1000000000 + x
    omega
  · obtain ⟨hm1, hm2⟩ := hneg (by omega)
    by_cases hm0 : m < 0
    · rw [if_neg (by omega), if_pos hm0,
        addSec_exact e (q - 1) (by omega) (by omega) (by omega) (by omega)]
      show ((e + (q - 1)) * 1000000000 + (m + 1000000000) : Int) = e * 1000000000 + x
      omega
    · rw [if_neg (by omega), if_neg hm0,
        addSec_exact e q (by omega) (by omega) (by omega) (by omega)]
      show ((e + q) * 1000000000 + m : Int) = e * 1000000000 + x
      omega

/-- The three ways in which `div` takes the remainder agree with the remainder of the
number of nanoseconds, for a non-negative whole second. -/
theorem div_core (a d : Int) (ha1 : 0 ≤ a) (ha2 : a < 2 ^ 63) (hd0 : 0 < d)
    (hd : d < 2 ^ 63) :
    (if d < Second ∧ Int.tmod Second (d + d) = 0 then Int.tmod 0 d
     else if Int.tmod d Second = 0 then
       wrap64 (wrap64 (Int.tmod a (Int.tdiv d Second) * Second) + 0)
     else (toUint64 a * Second + 0) % d) = (a * Second) % d := by
  by_cases h1 : d < Second ∧ Int.tmod Second (d + d) = 0
  · rw [if_pos h1, Int.zero_tmod]
    have hq := Int.tmod_add_tdiv Second (d + d)
    rw [h1.2, zero_add] at hq
    generalize Int.tdiv Second (d + d) = q at hq
    have hdvd : d ∣ a * Second := by
      refine ⟨a * (2 * q), ?_⟩
      rw [← hq]
      ring
    exact (Int.emod_eq_zero_of_dvd hdvd).symm
  · rw [if_neg h1]
    by_cases h2 : Int.tmod d Second = 0
    · rw [if_pos h2]
      have hq := Int.tmod_add_tdiv d Second
      rw [h2, zero_add] at hq
      generalize Int.tdiv d Second = d1 at hq
      have hd1 : 0 < d1 := by
        have hq' : (1000000000 * d1 : Int) = d := hq
        omega
      rw [Int.tmod_eq_emod ha1 (le_of_lt hd1)]
      have hr0 : 0 ≤ a % d1 := Int.emod_nonneg a (ne_of_gt hd1)
      have hr1 : a % d1 < d1 := Int.emod_lt_of_pos a hd1
      have hmul : (a * Second) % d = Second * (a % d1) := by
        rw [← hq, mul_comm a Second]
        exact Int.mul_emod_mul_of_pos a d1 (by decide)
      rw [hmul]
      generalize a % d1 = r at *
      have hq' : (1000000000 * d1 : Int) = d := hq
      have e1 : wrap64 (r * Second) = r * Second := by
        apply wrap64_of_range
        · show (-2 ^ 63 : Int) ≤ r * 1000000000
          omega
        · show (r * 1000000000 : Int) < 2 ^ 63
          omega
      rw [e1, add_zero, e1, mul_comm]
    · rw [if_neg h2]
      have e1 : toUint64 a = a := by
        unfold toUint64
        omega
      rw [e1, add_zero]

/-- The remainder that `div` returns for a whole second of magnitude below `2^63` is the
remainder of its number of nanoseconds by the duration. -/
theorem div_exact (e d : Int) (he1 : -2 ^ 63 < e) (he2 : e < 2 ^ 63) (hd0 : 0 < d)
    (hd : d < 2 ^ 63) : Time.div (e * Second) d = (e * Second) % d := by
  unfold Time.div
  rw [sec_mul_Second, nsec_mul_Second]
  by_cases hneg : e < 0
  · have hw : wrap64 (-e) = -e := wrap64_of_range _ (by omega) (by omega)
    simp only [hneg, decide_True, if_true, neg_zero, lt_irrefl, if_false, hw]
    rw [div_core (-e) d (by omega) (by omega) hd0 hd]
    have hr0 : 0 ≤ (-e * Second) % d := Int.emod_nonneg _ (ne_of_gt hd0)
    have hr1 : (-e * Second) % d < d := Int.emod_lt_of_pos _ hd0
    have hdiv : d * ((-e * Second) / d) + (-e * Second) % d = -e * Second :=
      Int.ediv_add_emod _ d
    generalize (-e * Second) / d = q at hdiv
    by_cases hr : (-e * Second) % d = 0
    · simp only [hr, ne_eq, not_true_eq_false, and_false, if_false]
      rw [hr, add_zero] at hdiv
      have : e * Second = d * (-q) := by
        have : -(e * Second) = d * q := by rw [hdiv]; ring
        linarith [mul_neg d q]
      rw [this, Int.mul_emod_right]
    · simp only [ne_eq, hr, not_false_eq_true, and_self, if_true]
      generalize (-e * Second) % d = r at *
      have hw2 : wrap64 (d - r) = d - r := wrap64_of_range _ (by omega) (by omega)
      rw [hw2]
      have : e * Second = (d - r) + d * (-q - 1) := by
        have h' : -(e * Second) = d * q + r := by rw [hdiv]; ring
        linarith [mul_sub d (-q) 1, mul_neg d q, mul_one d]
      rw [this, Int.add_mul_emod_self_left]
      exact (Int.emod_eq_of_lt (by omega) (by omega)).symm
  · simp only [hneg, decide_False, Bool.false_eq_true, if_false, lt_irrefl, false_and]
    exact div_core e d (by omega) he2 hd0 hd

theorem lessThanHalf_exact (r d : Int) (hr0 : 0 ≤ r) (hr1 : r < d) (hd : d < 2 ^ 63) :
    lessThanHalf r d = decide (r + r < d) := by
  unfold lessThanHalf toUint64
  congr 1
  apply propext
  constructor <;> intro h <;> omega

/-- While the seconds stay within `int64`, `Round` is the exact rounding. -/
theorem Round_exact (e d : Int) (he1 : -(2 ^ 62 + 2 ^ 36) ≤ e) (he2 : e ≤ 2 ^ 62 + 2 ^ 36)
    (hd : d < 2 ^ 63) : Round (e * Second) d = roundExact (e * Second) d := by
  unfold Round roundExact
  by_cases hd0 : d ≤ 0
  · rw [if_pos hd0, if_pos hd0]
  · rw [if_neg hd0, if_neg hd0]
    have hpos : 0 < d := by omega
    simp only
    rw [div_exact e d (by omega) (by omega) hpos hd]
    have hr0 : 0 ≤ (e * Second) % d := Int.emod_nonneg _ (ne_of_gt hpos)
    have hr1 : (e * Second) % d < d := Int.emod_lt_of_pos _ hpos
    rw [lessThanHalf_exact _ d hr0 hr1 hd]
    generalize (e * Second) % d = r at *
    have hw1 : wrap64 (-r) = -r := wrap64_of_range _ (by omega) (by omega)
    have hw2 : wrap64 (d - r) = d - r := wrap64_of_range _ (by omega) (by omega)
    rw [hw1, hw2]
    by_cases hlt : r + r < d
    · simp only [hlt, decide_True, if_true]
      exact Add_exact e (-r) he1 he2 (by omega) (by omega)
    · simp only [hlt, decide_False, Bool.false_eq_true, if_false]
      exact Add_exact e (d - r) he1 he2 (by omega) (by omega)

/-- For a timestamp of magnitude at most `2^62`, `roundTime` rounds the number of
nanoseconds since the zero time exactly, for every rate. -/
theorem roundTime_exact (rate ts : Int) (h1 : -2 ^ 62 ≤ ts) (h2 : ts ≤ 2 ^ 62) :
    roundTime rate ts = roundExact ((ts + unixToInternal) * Second) (wrap64 (rate * Hour)) := by
  unfold roundTime Unix
  have hw : wrap64 (ts + unixToInternal) = ts + unixToInternal := by
    apply wrap64_of_range <;> unfold unixToInternal <;> omega
  rw [hw]
  apply Round_exact
  · unfold unixToInternal; omega
  · unfold unixToInternal; omega
  · exact (wrap64_range _).2

theorem bucket_exact (rate : Int) (c : Coord) (h : -2 ^ 62 ≤ timestamp c ∧ timestamp c ≤ 2 ^ 62) :
    bucket rate c
      = roundExact ((timestamp c + unixToInternal) * Second) (wrap64 (rate * Hour)) := by
  unfold bucket
  rw [int64_of_range _ h.1 h.2]
  exact roundTime_exact rate _ h.1 h.2

/-- Among timestamps of magnitude at most `2^62` the Time Bucket is monotone in the
timestamp, for every rate. -/
theorem bucket_mono (rate : Int) (a b : Coord)
    (ha : -2 ^ 62 ≤ timestamp a ∧ timestamp a ≤ 2 ^ 62)
    (hb : -2 ^ 62 ≤ timestamp b ∧ timestamp b ≤ 2 ^ 62)
    (h : timestamp a ≤ timestamp b) : bucket rate a ≤ bucket rate b := by
  rw [bucket_exact rate a ha, bucket_exact rate b hb]
  apply roundExact_mono
  have hs : (0 : Int) ≤ Second := by decide
  exact Int.mul_le_mul_of_nonneg_right (by omega) hs

/-- For a rate whose duration does not overflow and a timestamp of magnitude at most
`2^62`, the Time Bucket is a whole number `m` of minutes since the zero time, of magnitude
below `2^57`. -/
theorem bucket_minutes (rate : Int) (h0 : 0 < rate) (h1 : rate ≤ 2562047) (c : Coord)
    (h : -2 ^ 62 ≤ timestamp c ∧ timestamp c ≤ 2 ^ 62) :
    ∃ m : Int, bucket rate c = m * 60000000000 ∧ -2 ^ 57 < m ∧ m < 2 ^ 57 := by
  rw [bucket_exact rate c h, wrap64_rate_mul_Hour rate h0 h1]
  have hd : 0 < rate * Hour := by unfold Hour Second; omega
  obtain ⟨k, e, hl, hu⟩ := roundExact_of_pos ((timestamp c + unixToInternal) * Second)
    (rate * Hour) hd
  rw [e] at hl hu ⊢
  have e' : k * (rate * Hour) = k * rate * 60 * 60000000000 := by
    unfold Hour Second; ring
  rw [e'] at hl hu ⊢
  generalize k * rate = kr at *
  refine ⟨kr * 60, rfl, ?_, ?_⟩
  · have hl' : (-(rate * (3600 * 1000000000)) : Int)
        < 2 * (kr * 60 * 60000000000 - (timestamp c + 62135596800) * 1000000000) := hl
    omega
  · have hu' : (2 * (kr * 60 * 60000000000 - (timestamp c + 62135596800) * 1000000000) : Int)
        ≤ rate * (3600 * 1000000000) := hu
    omega

/-- The minute key separates whole minutes of magnitude below `2^57`. -/
theorem Format_minutes_inj (m n : Int) (hm : -2 ^ 57 < m ∧ m < 2 ^ 57)
    (hn : -2 ^ 57 < n ∧ n < 2 ^ 57)
    (h : Format (m * 60000000000) = Format (n * 60000000000)) : m = n := by
  have key : ∀ x : Int, -2 ^ 57 < x → x < 2 ^ 57 →
      Format (x * 60000000000) = x + 153722866109662080 := by
    intro x hx1 hx2
    have e1 : (x * 60000000000 / 1000000000 : Int) = 60 * x := by omega
    have e2 : ((60 * x + 9223371966579724800) % 2 ^ 64 : Int)
        = 60 * x + 9223371966579724800 := by omega
    show ((x * 60000000000 / 1000000000 + 9223371966579724800) % 2 ^ 64 / 60 : Int)
      = x + 153722866109662080
    rw [e1, e2]
    omega
  rw [key m hm.1 hm.2, key n hn.1 hn.2] at h
  omega

/-! ## The map of `getTimeIntervals` -/

theorem mem_mapSet_self (m : List (Int × Time)) (k : Int) (v : Time) :
    (k, v) ∈ mapSet m k v := by
  induction m with
  | nil => simp [mapSet]
  | cons p m ih =>
    obtain ⟨k', v'⟩ := p
    by_cases hk : k' = k
    · simp [mapSet, hk]
    · simp [mapSet, hk, ih]

theorem mem_mapSet_of_ne (m : List (Int × Time)) (k : Int) (v : Time) (p : Int × Time)
    (hp : p ∈ m) (hne : p.1 ≠ k) : p ∈ mapSet m k v := by
  induction m with
  | nil => cases hp
  | cons q m ih =>
    obtain ⟨k', v'⟩ := q
    by_cases hk : k' = k
    · simp only [mapSet, hk, if_true]
      rcases List.mem_cons.mp hp with h | h
      · subst h; exact absurd hk hne
      · exact List.mem_cons_of_mem _ h
    · simp only [mapSet, hk, if_false]
      rcases List.mem_cons.mp hp with h | h
      · subst h; exact List.mem_cons_self _ _
      · exact List.mem_cons_of_mem _ (ih h)

theorem mem_mapSet_inv (m : List (Int × Time)) (k : Int) (v : Time) (p : Int × Time)
    (hp : p ∈ mapSet m k v) : p = (k, v) ∨ p ∈ m := by
  induction m with
  | nil => simpa [mapSet] using hp
  | cons q m ih =>
    obtain ⟨k', v'⟩ := q
    by_cases hk : k' = k
    · simp only [mapSet, hk, if_true] at hp
      rcases List.mem_cons.mp hp with h | h
      · exact Or.inl h
      · exact Or.inr (List.mem_cons_of_mem _ h)
    · simp only [mapSet, hk, if_false] at hp
      rcases List.mem_cons.mp hp with h | h
      · exact Or.inr (h ▸ List.mem_cons_self _ _)
      · rcases ih h with h' | h'
        · exact Or.inl h'
        · exact Or.inr (List.mem_cons_of_mem _ h')

theorem mapSet_key_mem (m : List (Int × Time)) (k : Int) (v : Time) (k' : Int)
    (h : k' ∈ (mapSet m k v).map Prod.fst) : k' = k ∨ k' ∈ m.map Prod.fst := by
  obtain ⟨p, hp, rfl⟩ := List.mem_map.mp h
  rcases mem_mapSet_inv m k v p hp with h' | h'
  · left; rw [h']
  · right; exact List.mem_map.mpr ⟨p, h', rfl⟩

theorem mapSet_nodup (m : List (Int × Time)) (k : Int) (v : Time)
    (h : (m.map Prod.fst).Nodup) : ((mapSet m k v).map Prod.fst).Nodup := by
  induction m with
  | nil => simp [mapSet]
  | cons q m ih =>
    obtain ⟨k', v'⟩ := q
    simp only [List.map_cons, List.nodup_cons] at h
    by_cases hk : k' = k
    · subst hk
      simp only [mapSet, if_true, List.map_cons, List.nodup_cons]
      exact h
    · simp only [mapSet, hk, if_false, List.map_cons, List.nodup_cons]
      refine ⟨?_, ih h.2⟩
      intro hmem
      rcases mapSet_key_mem m k v k' hmem with h' | h'
      · exact hk h'
      · exact h.1 h'

theorem mapSet_keyed (m : List (Int × Time)) (b : Time) (h : KeyedByFormat m) :
    KeyedByFormat (mapSet m (Format b) b) := by
  refine ⟨mapSet_nodup m _ _ h.1, ?_⟩
  intro p hp
  rcases mem_mapSet_inv m _ _ p hp with h' | h'
  · rw [h']
  · exact h.2 p h'

theorem setAll_concat (m : List (Int × Time)) (bs : List Time) (b : Time) :
    setAll m (bs ++ [b]) = mapSet (setAll m bs) (Format b) b := by
  simp [setAll, List.foldl_append]

theorem setAll_keyed (m : List (Int × Time)) (bs : List Time) (h : KeyedByFormat m) :
    KeyedByFormat (setAll m bs) := by
  induction bs using List.reverseRecOn with
  | nil => simpa [setAll] using h
  | append_singleton bs b ih =>
    rw [setAll_concat]
    exact mapSet_keyed _ b ih

theorem setAll_sound (bs : List Time) (p : Int × Time) (hp : p ∈ setAll [] bs) :
    p.2 ∈ bs := by
  induction bs using List.reverseRecOn with
  | nil => simp [setAll] at hp
  | append_singleton bs b ih =>
    rw [setAll_concat] at hp
    rcases mem_mapSet_inv _ _ _ p hp with h' | h'
    · rw [h']; simp
    · exact List.mem_append_left _ (ih h')

theorem setAll_covers (m : List (Int × Time)) (bs : List Time) (b : Time) (hb : b ∈ bs) :
    ∃ v, (Format b, v) ∈ setAll m bs := by
  induction bs using List.reverseRecOn with
  | nil => cases hb
  | append_singleton bs b' ih =>
    rw [setAll_concat]
    rcases List.mem_append.mp hb with h | h
    · obtain ⟨v, hv⟩ := ih h
      by_cases hk : Format b = Format b'
      · exact ⟨b', hk ▸ mem_mapSet_self _ _ _⟩
      · exact ⟨v, mem_mapSet_of_ne _ _ _ _ hv hk⟩
    · have : b = b' := by simpa using h
      subst this
      exact ⟨b, mem_mapSet_self _ _ _⟩

/-! ## `getTimeIntervals` -/

theorem index_two (c : Coord) (h : 2 < c.length) : index c 2 = .ok (timestamp c) := by
  match c, h with
  | _ :: _ :: z :: _, _ => simp [index, timestamp]

theorem index_two_ok (c : Coord) (z : Int) (h : index c 2 = .ok z) : 2 < c.length := by
  match c, h with
  | _ :: _ :: _ :: _, _ => simp

theorem collectTimes_eq (rate : Int) (coords : List Coord) (m : List (Int × Time))
    (h : ∀ c ∈ coords, 2 < c.length) :
    collectTimes rate coords m = .ok (setAll m (coords.map (bucket rate))) := by
  induction coords generalizing m with
  | nil => simp [collectTimes, setAll]
  | cons c cs ih =>
    have hc : 2 < c.length := h c (List.mem_cons_self _ _)
    have hcs : ∀ c ∈ cs, 2 < c.length := fun x hx => h x (List.mem_cons_of_mem _ hx)
    simp only [collectTimes, index_two c hc]
    rw [ih _ hcs]
    simp [setAll, bucket]

theorem collectTimes_ok (rate : Int) (coords : List Coord) (m t : List (Int × Time))
    (h : collectTimes rate coords m = .ok t) : ∀ c ∈ coords, 2 < c.length := by
  induction coords generalizing m with
  | nil => intro c hc; cases hc
  | cons c cs ih =>
    simp only [collectTimes] at h
    cases hi : index c 2 with
    | error e => rw [hi] at h; cases h
    | ok z =>
      rw [hi] at h
      intro x hx
      rcases List.mem_cons.mp hx with hx | hx
      · subst hx; exact index_two_ok _ z hi
      · exact ih _ h x hx

theorem getTimeIntervals_eq (rate : Int) (coords : List Coord)
    (h : ∀ c ∈ coords, 2 < c.length) :
    getTimeIntervals rate coords =
      .ok (sortTimes ((setAll [] (coords.map (bucket rate))).map Prod.snd)) := by
  simp [getTimeIntervals, collectTimes_eq rate coords [] h]

theorem getTimeIntervals_ok (rate : Int) (coords : List Coord) (intervals : List Time)
    (h : getTimeIntervals rate coords = .ok intervals) : ∀ c ∈ coords, 2 < c.length := by
  unfold getTimeIntervals at h
  cases hc : collectTimes rate coords [] with
  | error e => rw [hc] at h; cases h
  | ok t => exact collectTimes_ok rate coords [] t hc

theorem mem_sortTimes (l : List Time) (v : Time) : v ∈ sortTimes l ↔ v ∈ l :=
  (List.perm_insertionSort _ l).mem_iff

theorem sortTimes_perm (l₁ l₂ : List Time) (h : List.Perm l₁ l₂) :
    sortTimes l₁ = sortTimes l₂ := by
  have hp : List.Perm (sortTimes l₁) (sortTimes l₂) :=
    ((List.perm_insertionSort _ l₁).trans h).trans (List.perm_insertionSort _ l₂).symm
  exact List.eq_of_perm_of_sorted hp (List.sorted_insertionSort _ l₁)
    (List.sorted_insertionSort _ l₂)

theorem keyed_values_nodup (m : List (Int × Time)) (h : KeyedByFormat m) :
    (m.map Prod.snd).Nodup := by
  have hk : m.map Prod.fst = (m.map Prod.snd).map Format := by
    rw [List.map_map]
    exact List.map_congr_left (fun p hp => h.2 p hp)
  have := h.1
  rw [hk] at this
  exact List.Nodup.of_map _ this

theorem sortTimes_sorted (l : List Time) (h : l.Nodup) : (sortTimes l).Sorted (· < ·) := by
  have h1 : (sortTimes l).Sorted (· ≤ ·) := List.sorted_insertionSort _ l
  have h2 : (sortTimes l).Nodup := (List.perm_insertionSort _ l).nodup_iff.mpr h
  exact h1.lt_of_le h2

theorem keyed_nil : KeyedByFormat [] := by
  constructor
  · simp
  · intro p hp; cases hp

/-- The list that `getTimeIntervals` returns has the properties `IsIntervals`. -/
theorem isIntervals_sortTimes (rate : Int) (coords : List Coord) :
    IsIntervals rate coords
      (sortTimes ((setAll [] (coords.map (bucket rate))).map Prod.snd)) := by
  have hk : KeyedByFormat (setAll [] (coords.map (bucket rate))) := setAll_keyed _ _ keyed_nil
  refine ⟨sortTimes_sorted _ (keyed_values_nodup _ hk), ?_, ?_, ?_, ?_⟩
  · intro v hv
    rw [mem_sortTimes] at hv
    obtain ⟨p, hp, rfl⟩ := List.mem_map.mp hv
    have := setAll_sound _ p hp
    obtain ⟨c, hc, e⟩ := List.mem_map.mp this
    exact ⟨c, hc, e⟩
  · intro c hc
    obtain ⟨v, hv⟩ := setAll_covers [] (coords.map (bucket rate)) (bucket rate c)
      (List.mem_map.mpr ⟨c, hc, rfl⟩)
    refine ⟨v, ?_, ?_⟩
    · rw [mem_sortTimes]; exact List.mem_map.mpr ⟨_, hv, rfl⟩
    · exact (hk.2 _ hv).symm
  · intro v hv w hw e
    rw [mem_sortTimes] at hv hw
    obtain ⟨p, hp, rfl⟩ := List.mem_map.mp hv
    obtain ⟨q, hq, rfl⟩ := List.mem_map.mp hw
    have e' : p.1 = q.1 := by rw [hk.2 p hp, hk.2 q hq, e]
    rw [List.inj_on_of_nodup_map hk.1 hp hq e']
  · intro l hl
    obtain ⟨ys, rfl⟩ := List.getLast?_eq_some_iff.mp hl
    rw [mem_sortTimes, List.map_append, List.map_singleton, setAll_concat]
    exact List.mem_map.mpr ⟨_, mem_mapSet_self _ _ _, rfl⟩

/-- For a rate whose duration does not overflow and timestamps of magnitude at most
`2^62`, no Time Bucket of the input is lost by the minute key: the list holds the bucket
of every position. -/
theorem IsIntervals.complete {rate : Int} {coords : List Coord} {intervals : List Time}
    (hI : IsIntervals rate coords intervals) (h0 : 0 < rate) (h1 : rate ≤ 2562047)
    (hr : TimestampsInRange coords)
    (c : Coord) (hc : c ∈ coords) : bucket rate c ∈ intervals := by
  obtain ⟨v, hv, e⟩ := hI.covers c hc
  obtain ⟨c', hc', e'⟩ := hI.sound v hv
  obtain ⟨m, hm, hm1, hm2⟩ := bucket_minutes rate h0 h1 c (hr c hc)
  obtain ⟨n, hn, hn1, hn2⟩ := bucket_minutes rate h0 h1 c' (hr c' hc')
  have : v = bucket rate c := by
    rw [← e', hm, hn]
    rw [← e', hm, hn] at e
    rw [Format_minutes_inj n m ⟨hn1, hn2⟩ ⟨hm1, hm2⟩ e]
  rw [← this]; exact hv

/-! ## The loops of `resampleTime` -/

theorem findFirst_eq (rate : Int) (interval : Time) (coords : List Coord)
    (h : ∀ c ∈ coords, 2 < c.length) :
    findFirst rate interval coords = .ok (firstIn rate coords interval) := by
  induction coords with
  | nil => simp [findFirst, firstIn]
  | cons c cs ih =>
    have hc : 2 < c.length := h c (List.mem_cons_self _ _)
    have hcs : ∀ c ∈ cs, 2 < c.length := fun x hx => h x (List.mem_cons_of_mem _ hx)
    simp only [findFirst, index_two c hc]
    by_cases hb : roundTime rate (int64 (timestamp c)) = interval
    · simp [hb, firstIn, bucket]
    · rw [if_neg hb, ih hcs]
      simp [firstIn, bucket, hb]

theorem reduceCoords_eq (rate : Int) (coords : List Coord) (intervals : List Time)
    (acc : List Coord) (h : ∀ c ∈ coords, 2 < c.length) :
    reduceCoords rate coords intervals acc = .ok (acc ++ firsts rate coords intervals) := by
  induction intervals generalizing acc with
  | nil => simp [reduceCoords, firsts]
  | cons iv ivs ih =>
    cases hf : firstIn rate coords iv with
    | none =>
      simp only [reduceCoords, findFirst_eq rate iv coords h, hf]
      rw [ih]
      simp [firsts, hf]
    | some s =>
      simp only [reduceCoords, findFirst_eq rate iv coords h, hf]
      rw [ih]
      simp [firsts, hf]

theorem firstIn_some (rate : Int) (coords : List Coord) (interval : Time) (s : Coord)
    (h : firstIn rate coords interval = some s) : s ∈ coords ∧ bucket rate s = interval := by
  unfold firstIn at h
  refine ⟨List.mem_of_find?_eq_some h, ?_⟩
  simpa using List.find?_some h

theorem firstIn_of_mem (rate : Int) (coords : List Coord) (c : Coord) (hc : c ∈ coords) :
    ∃ s, firstIn rate coords (bucket rate c) = some s := by
  cases hf : firstIn rate coords (bucket rate c) with
  | some s => exact ⟨s, rfl⟩
  | none =>
    unfold firstIn at hf
    rw [List.find?_eq_none] at hf
    have := hf c hc
    simp at this

/-- When every interval is the bucket of some position, `firsts` selects one position per
interval, whose bucket is that interval and which is the first of the input in it. -/
theorem firsts_spec (rate : Int) (coords : List Coord) (intervals : List Time)
    (h : ∀ iv ∈ intervals, ∃ c ∈ coords, bucket rate c = iv) :
    (firsts rate coords intervals).map (bucket rate) = intervals ∧
    ∀ s ∈ firsts rate coords intervals,
      s ∈ coords ∧ firstIn rate coords (bucket rate s) = some s := by
  induction intervals with
  | nil => simp [firsts]
  | cons iv ivs ih =>
    obtain ⟨c, hc, e⟩ := h iv (List.mem_cons_self _ _)
    obtain ⟨s, hs⟩ := firstIn_of_mem rate coords c hc
    rw [e] at hs
    obtain ⟨hs1, hs2⟩ := firstIn_some rate coords iv s hs
    obtain ⟨ih1, ih2⟩ := ih (fun iv' hiv' => h iv' (List.mem_cons_of_mem _ hiv'))
    have hcons : firsts rate coords (iv :: ivs) = s :: firsts rate coords ivs := by
      simp [firsts, hs]
    rw [hcons]
    refine ⟨by simp [hs2, ih1], ?_⟩
    intro x hx
    rcases List.mem_cons.mp hx with hx | hx
    · subst hx; exact ⟨hs1, by rw [hs2]; exact hs⟩
    · exact ih2 x hx

theorem index_last {α : Type} (xs : List α) :
    index xs (xs.length - 1) =
      match xs.getLast? with
      | some x => .ok x
      | none => .error .indexOutOfRange := by
  unfold index
  rw [List.getLast?_eq_getElem?]

theorem addLast_eq (sel coords : List Coord) (ls lc : Coord)
    (h1 : sel.getLast? = some ls) (h2 : coords.getLast? = some lc) :
    addLast sel coords = .ok (if Equal 3 ls lc then sel else sel ++ [lc]) := by
  unfold addLast
  rw [index_last, index_last, h1, h2]
  by_cases he : Equal 3 ls lc = true
  · simp [he]
  · simp [he]

theorem addLast_ok (sel coords out : List Coord) (h : addLast sel coords = .ok out) :
    ∃ ls lc, sel.getLast? = some ls ∧ coords.getLast? = some lc ∧
      out = if Equal 3 ls lc then sel else sel ++ [lc] := by
  cases h1 : sel.getLast? with
  | none => simp [addLast, index_last, h1] at h
  | some ls =>
    cases h2 : coords.getLast? with
    | none => simp [addLast, index_last, h1, h2] at h
    | some lc =>
      rw [addLast_eq sel coords ls lc h1 h2] at h
      exact ⟨ls, lc, rfl, rfl, by injection h with h; exact h.symm⟩

/-! ## Runs of `resampleTime` -/

theorem Equal_self (c : Coord) : Equal 3 c c = true := by
  simp [Equal]

theorem Equal_iff_take (a b : Coord) (ha : 2 < a.length) (hb : 2 < b.length) :
    Equal 3 a b = true ↔ a.take 3 = b.take 3 := by
  have h1 : ¬ a.length < 3 := by omega
  have h2 : ¬ b.length < 3 := by omega
  by_cases h3 : 3 < a.length
  · simp [Equal, h1, h2, h3]
  · have h4 : a.length = 3 := by omega
    simp [Equal, h1, h2, h4]

theorem SetCoords_ok (l out : List Coord) (h : SetCoords 3 l = .ok out) :
    out = l ∧ ∀ c ∈ l, c.length = 3 := by
  unfold SetCoords at h
  by_cases ha : (l.all fun c => c.length == 3) = true
  · rw [if_pos ha] at h
    injection h with h
    refine ⟨h.symm, ?_⟩
    intro c hc
    have := List.all_eq_true.mp ha c hc
    simpa using this
  · rw [if_neg ha] at h; cases h

theorem SetCoords_eq (l : List Coord) (h : ∀ c ∈ l, c.length = 3) : SetCoords 3 l = .ok l := by
  unfold SetCoords
  have : (l.all fun c => c.length == 3) = true := by
    rw [List.all_eq_true]
    intro c hc
    simpa using h c hc
  rw [if_pos this]

/-- Every non-empty trajectory whose positions have a third ordinate reaches the endpoint
step. -/
theorem run_exists (rate : Int) (coords : List Coord) (hne : coords ≠ [])
    (h3 : ∀ c ∈ coords, 2 < c.length) :
    ∃ intervals sel lastSel last, Run rate coords intervals sel lastSel last := by
  have hI := isIntervals_sortTimes rate coords
  have hget := getTimeIntervals_eq rate coords h3
  generalize sortTimes ((setAll [] (coords.map (bucket rate))).map Prod.snd) = I at hI hget
  obtain ⟨hb, hf⟩ := firsts_spec rate coords I hI.sound
  have hsel := reduceCoords_eq rate coords I [] h3
  rw [List.nil_append] at hsel
  cases hl : coords.getLast? with
  | none => exact absurd (List.getLast?_eq_none_iff.mp hl) hne
  | some last =>
    have hmem : bucket rate last ∈ I := hI.last last hl
    cases hs : (firsts rate coords I).getLast? with
    | none =>
      have : firsts rate coords I = [] := List.getLast?_eq_none_iff.mp hs
      rw [this] at hb
      rw [← hb] at hmem
      cases hmem
    | some lastSel =>
      refine ⟨I, firsts rate coords I, lastSel, last, h3, hget, hI, hsel, hb, hf, hs, hl, ?_⟩
      simp only [reducedWithLast, hget, hsel]
      exact addLast_eq _ _ _ _ hs hl

theorem resampleTimeCoords_nil (rate : Int) :
    resampleTimeCoords rate [] = .error .indexOutOfRange := rfl

/-- A successful call of `resampleTime` decomposes into a run, and its output is the
sequence after the endpoint step, of at least two positions of three ordinates each. -/
theorem run_of_ok (rate : Int) (coords out : List Coord)
    (h : resampleTimeCoords rate coords = .ok out) :
    ∃ intervals sel lastSel last, Run rate coords intervals sel lastSel last ∧
      out = (if Equal 3 lastSel last then sel else sel ++ [last]) ∧
      2 ≤ out.length ∧ ∀ c ∈ out, c.length = 3 := by
  have hne : coords ≠ [] := by
    rintro rfl
    rw [resampleTimeCoords_nil] at h
    cases h
  have h3 : ∀ c ∈ coords, 2 < c.length := by
    unfold resampleTimeCoords reducedWithLast at h
    cases hg : getTimeIntervals rate coords with
    | error e => rw [hg] at h; cases h
    | ok I => exact getTimeIntervals_ok rate coords I hg
  obtain ⟨I, sel, lastSel, last, hrun⟩ := run_exists rate coords hne h3
  refine ⟨I, sel, lastSel, last, hrun, ?_⟩
  unfold resampleTimeCoords at h
  rw [hrun.withLast] at h
  simp only at h
  by_cases hlen : (if Equal 3 lastSel last then sel else sel ++ [last]).length ≤ 1
  · rw [if_pos hlen] at h; cases h
  · rw [if_neg hlen] at h
    obtain ⟨e, hall⟩ := SetCoords_ok _ _ h
    refine ⟨e, ?_, ?_⟩
    · rw [e]; omega
    · rw [e]; exact hall

theorem Equal_iff_eq (a b : Coord) (ha : a.length = 3) (hb : b.length = 3) :
    Equal 3 a b = true ↔ a = b := by
  rw [Equal_iff_take a b (by omega) (by omega), List.take_of_length_le (by omega),
    List.take_of_length_le (by omega)]

theorem nodup_const_length (l : List Time) (b : Time) (hn : l.Nodup) (h : ∀ x ∈ l, x = b) :
    l.length ≤ 1 := by
  match l, hn, h with
  | [], _, _ => simp
  | [_], _, _ => simp
  | x :: y :: _, hn, h =>
    have hx : x = b := h x (by simp)
    have hy : y = b := h y (by simp)
    subst hx hy
    simp at hn

theorem Run.sel_nodup {rate : Int} {coords : List Coord} {I : List Time} {sel : List Coord}
    {lastSel last : Coord} (hrun : Run rate coords I sel lastSel last) :
    (sel.map (bucket rate)).Nodup := by
  rw [hrun.buckets]
  exact hrun.isIntervals.sorted.nodup

/-- A run on a trajectory whose positions all lie in the bucket `b`: that bucket is the
only interval and the first position is the only one selected. -/
theorem Run.single {rate : Int} {coords : List Coord} {I : List Time} {sel : List Coord}
    {lastSel last : Coord} (hrun : Run rate coords I sel lastSel last) (b : Time)
    (hsame : ∀ c ∈ coords, bucket rate c = b) :
    ∃ first, coords.head? = some first ∧ I = [b] ∧ sel = [first] ∧ lastSel = first := by
  have hall : ∀ v ∈ I, v = b := by
    intro v hv
    obtain ⟨c, hc, e⟩ := hrun.isIntervals.sound v hv
    rw [← e]; exact hsame c hc
  have hlen := nodup_const_length I b hrun.isIntervals.sorted.nodup hall
  have hmem : bucket rate last ∈ I := hrun.isIntervals.last last hrun.last_eq
  have hI : I = [b] := by
    match I, hlen, hmem, hall with
    | [v], _, _, hall => rw [hall v (by simp)]
  have hb := hrun.buckets
  rw [hI] at hb
  obtain ⟨s, hs⟩ : ∃ s, sel = [s] := by
    match sel, hb with
    | [s], _ => exact ⟨s, rfl⟩
  have hls : lastSel = s := by
    have := hrun.lastSel_eq
    rw [hs] at this
    simpa using this.symm
  have hfirst := (hrun.first s (by rw [hs]; simp)).2
  match coords, hrun.last_eq, hsame, hfirst with
  | c :: cs, _, hsame, hfirst =>
    refine ⟨c, rfl, hI, ?_, ?_⟩
    · have hc : bucket rate c = bucket rate s := by
        rw [hsame c (by simp)]
        rw [hs] at hb
        simpa using hb.symm
      simp [firstIn, hc] at hfirst
      rw [hs, hfirst]
    · have hc : bucket rate c = bucket rate s := by
        rw [hsame c (by simp)]
        rw [hs] at hb
        simpa using hb.symm
      simp [firstIn, hc] at hfirst
      rw [hls, hfirst]

/-- On a 3D trajectory the sequence after the endpoint step is `sel`, or `sel` followed by
the last position when that differs from the last selected one, and `resampleTime`
returns it unless it has fewer than two positions. -/
theorem Run.resample_eq {rate : Int} {coords : List Coord} {I : List Time} {sel : List Coord}
    {lastSel last : Coord} (hrun : Run rate coords I sel lastSel last)
    (h3 : ∀ c ∈ coords, c.length = 3) :
    ∃ r, (r = sel ∧ lastSel = last ∨ r = sel ++ [last] ∧ lastSel ≠ last) ∧
      reducedWithLast rate coords = .ok r ∧
      resampleTimeCoords rate coords =
        if r.length ≤ 1 then .error .tooFewPoints else .ok r := by
  have hlastmem : last ∈ coords := List.mem_of_getLast?_eq_some hrun.last_eq
  have hlsmem : lastSel ∈ sel := List.mem_of_getLast?_eq_some hrun.lastSel_eq
  have hsel3 : ∀ c ∈ sel, c.length = 3 := fun c hc => h3 c (hrun.first c hc).1
  have heq : Equal 3 lastSel last = true ↔ lastSel = last :=
    Equal_iff_eq _ _ (hsel3 _ hlsmem) (h3 _ hlastmem)
  have hw := hrun.withLast
  by_cases he : Equal 3 lastSel last = true
  · rw [if_pos he] at hw
    refine ⟨sel, Or.inl ⟨rfl, heq.mp he⟩, hw, ?_⟩
    unfold resampleTimeCoords
    rw [hw]
    simp only [SetCoords_eq sel hsel3]
  · rw [if_neg he] at hw
    refine ⟨sel ++ [last], Or.inr ⟨rfl, fun h => he (heq.mpr h)⟩, hw, ?_⟩
    have h3' : ∀ c ∈ sel ++ [last], c.length = 3 := by
      intro c hc
      rcases List.mem_append.mp hc with hc | hc
      · exact hsel3 c hc
      · rw [List.mem_singleton.mp hc]; exact h3 _ hlastmem
    unfold resampleTimeCoords
    rw [hw]
    simp only [SetCoords_eq _ h3']

/-- The position found by `firstIn` has the smallest index among the positions of its
bucket. -/
theorem firstIn_index (rate : Int) (coords : List Coord) (s : Coord)
    (h : firstIn rate coords (bucket rate s) = some s) :
    ∃ i : Nat, coords[i]? = some s ∧
      ∀ j : Nat, j < i → ∀ c, coords[j]? = some c → bucket rate c ≠ bucket rate s := by
  unfold firstIn at h
  obtain ⟨_, as, bs, e, hno⟩ := List.find?_eq_some.mp h
  refine ⟨as.length, ?_, ?_⟩
  · rw [e, List.getElem?_append_right (le_refl _)]
    simp
  · intro j hj c hc
    rw [e, List.getElem?_append_left hj] at hc
    have := hno c (List.getElem?_mem hc)
    simpa using this

theorem sorted_le_getLast (l : List Time) (m : Time) (hs : l.Sorted (· < ·))
    (hl : l.getLast? = some m) : ∀ v ∈ l, v ≤ m := by
  obtain ⟨ys, rfl⟩ := List.getLast?_eq_some_iff.mp hl
  intro v hv
  rcases List.mem_append.mp hv with hv | hv
  · exact le_of_lt ((List.pairwise_append.mp hs).2.2 v hv m (by simp))
  · rw [List.mem_singleton.mp hv]

theorem sorted_le_last_timestamp (coords : List Coord) (last : Coord)
    (hs : (coords.map timestamp).Sorted (· ≤ ·)) (hl : coords.getLast? = some last) :
    ∀ c ∈ coords, timestamp c ≤ timestamp last := by
  obtain ⟨ys, rfl⟩ := List.getLast?_eq_some_iff.mp hl
  intro c hc
  rw [List.map_append] at hs
  rcases List.mem_append.mp hc with hc | hc
  · exact (List.pairwise_append.mp hs).2.2 _ (List.mem_map.mpr ⟨c, hc, rfl⟩) _ (by simp)
  · rw [List.mem_singleton.mp hc]

/-- On an input in chronological order the last selected position lies in the bucket of
the last position. -/
theorem Run.lastSel_bucket {rate : Int} {coords : List Coord} {I : List Time}
    {sel : List Coord} {lastSel last : Coord} (hrun : Run rate coords I sel lastSel last)
    (hr : TimestampsInRange coords) (hs : (coords.map timestamp).Sorted (· ≤ ·)) :
    bucket rate lastSel = bucket rate last := by
  have hlsmem : lastSel ∈ sel := List.mem_of_getLast?_eq_some hrun.lastSel_eq
  have hlmem : last ∈ coords := List.mem_of_getLast?_eq_some hrun.last_eq
  have h1 : bucket rate lastSel ≤ bucket rate last :=
    bucket_mono rate _ _ (hr _ (hrun.first _ hlsmem).1) (hr _ hlmem)
      (sorted_le_last_timestamp coords last hs hrun.last_eq _ (hrun.first _ hlsmem).1)
  have hIlast : I.getLast? = some (bucket rate lastSel) := by
    rw [← hrun.buckets, List.getLast?_map, hrun.lastSel_eq]; rfl
  have h2 : bucket rate last ≤ bucket rate lastSel :=
    sorted_le_getLast I _ hrun.isIntervals.sorted hIlast _
      (hrun.isIntervals.last last hrun.last_eq)
  exact le_antisymm h1 h2

/-! ## Endpoint guarantee -/

/-- C1: whenever `resampleTime` returns an output, the last position of the output is
coordinate-identical to the last position of the input: it consists of the x, y and
timestamp ordinates of that position (and is that position itself when the input is 3D). -/
theorem resampleTime_last_is_input_last (rate : Int) (coords out : List Coord)
    (h : resampleTimeCoords rate coords = .ok out) :
    ∃ last, coords.getLast? = some last ∧ out.getLast? = some (last.take 3) ∧
      (last.length = 3 → out.getLast? = coords.getLast?) := by
  obtain ⟨I, sel, lastSel, last, hrun, hout, _, hall⟩ := run_of_ok rate coords out h
  have hlast3 : 2 < last.length := hrun.wide last (List.mem_of_getLast?_eq_some hrun.last_eq)
  have key : out.getLast? = some (last.take 3) := by
    by_cases he : Equal 3 lastSel last = true
    · rw [if_pos he] at hout
      have hmem : lastSel ∈ out := by
        rw [hout]; exact List.mem_of_getLast?_eq_some hrun.lastSel_eq
      have hlen : lastSel.length = 3 := hall _ hmem
      have htake := (Equal_iff_take lastSel last (by omega) hlast3).mp he
      rw [hout, hrun.lastSel_eq, ← htake, List.take_of_length_le (by omega)]
    · rw [if_neg he] at hout
      have hmem : last ∈ out := by rw [hout]; simp
      have hlen : last.length = 3 := hall _ hmem
      rw [hout, List.getLast?_concat, List.take_of_length_le (by omega)]
  refine ⟨last, hrun.last_eq, key, ?_⟩
  intro hlen
  rw [key, hrun.last_eq, List.take_of_length_le (by omega)]

theorem resampleTime_last_is_input_last_witness :
    resampleTimeCoords 1 [[0, 0, 0], [5, 5, 1700], [9, 9, 7200], [7, 7, 7300]]
        = .ok [[0, 0, 0], [9, 9, 7200], [7, 7, 7300]] ∧
      ∃ last : Coord,
        ([[0, 0, 0], [5, 5, 1700], [9, 9, 7200], [7, 7, 7300]] : List Coord).getLast?
          = some last ∧
        ([[0, 0, 0], [9, 9, 7200], [7, 7, 7300]] : List Coord).getLast?
          = some (last.take 3) ∧
        (last.length = 3 →
          ([[0, 0, 0], [9, 9, 7200], [7, 7, 7300]] : List Coord).getLast?
            = ([[0, 0, 0], [5, 5, 1700], [9, 9, 7200], [7, 7, 7300]] : List Coord).getLast?) :=
  ⟨by decide,
   resampleTime_last_is_input_last 1 [[0, 0, 0], [5, 5, 1700], [9, 9, 7200], [7, 7, 7300]]
     [[0, 0, 0], [9, 9, 7200], [7, 7, 7300]] (by decide)⟩

/-! ## Too few points -/

/-- C2, counterexample, in two parts.  At the rate 2562048, whose duration in nanoseconds
overflows `int64` to a negative value (so that `Round` leaves the times unchanged), the
positions `(0,0,0)` and `(1,1,1)` lie in two different Time Buckets and differ, yet fall in
one minute, so that one interval is found and `resampleTime` fails with "too few points".
At rate 2 the same happens for the timestamps 9223371974719178752 and 9223371974719179776:
`time.Unix` wraps around for the second, `addSec` saturates for both, and the two buckets,
`2^63-1` and `-(2^63-1)` seconds, get one minute key. -/
theorem tooFewPoints_overflow_counterexample :
    (¬ (∀ (rate : Int) (coords : List Coord), 0 < rate → coords ≠ [] →
        (∀ c ∈ coords, c.length = 3) → TimestampsInRange coords →
        (resampleTimeCoords rate coords = .error .tooFewPoints ↔
          (∀ c ∈ coords, ∀ c' ∈ coords, bucket rate c = bucket rate c') ∧
            coords.head? = coords.getLast?))) ∧
    (¬ (∀ (rate : Int) (coords : List Coord), 0 < rate → rate ≤ 2562047 → coords ≠ [] →
        (∀ c ∈ coords, c.length = 3) →
        (resampleTimeCoords rate coords = .error .tooFewPoints ↔
          (∀ c ∈ coords, ∀ c' ∈ coords, bucket rate c = bucket rate c') ∧
            coords.head? = coords.getLast?))) := by
  constructor
  · intro h
    have h' := (h 2562048 [[0, 0, 0], [1, 1, 1]] (by decide) (by decide) (by decide)
      (by decide)).mp (by decide)
    exact absurd h'.2 (by decide)
  · intro h
    have h' := (h 2 [[0, 0, 9223371974719178752], [1, 1, 9223371974719179776]] (by decide)
      (by decide) (by decide) (by decide)).mp (by decide)
    exact absurd h'.2 (by decide)

/-- C2 (amended): for every non-empty 3D trajectory whose timestamps are of magnitude at
most `2^62` seconds and every rate with `0 < rate ≤ 2562047` (the rates whose duration fits
a `time.Duration`), `resampleTime` fails with the too-few-points error if and only if all
positions round to one single Time Bucket and the first position equals the last one; in
every other case it succeeds with an output of at least two positions. -/
theorem tooFewPoints_iff (rate : Int) (coords : List Coord) (h0 : 0 < rate)
    (h1 : rate ≤ 2562047) (hne : coords ≠ []) (h3 : ∀ c ∈ coords, c.length = 3)
    (hts : TimestampsInRange coords) :
    (resampleTimeCoords rate coords = .error .tooFewPoints ↔
      (∀ c ∈ coords, ∀ c' ∈ coords, bucket rate c = bucket rate c') ∧
        coords.head? = coords.getLast?) ∧
    (resampleTimeCoords rate coords ≠ .error .tooFewPoints →
      ∃ out, resampleTimeCoords rate coords = .ok out ∧ 2 ≤ out.length) := by
  have hw : ∀ c ∈ coords, 2 < c.length := fun c hc => by rw [h3 c hc]; omega
  obtain ⟨I, sel, lastSel, last, hrun⟩ := run_exists rate coords hne hw
  have hlastmem : last ∈ coords := List.mem_of_getLast?_eq_some hrun.last_eq
  have hlsmem : lastSel ∈ sel := List.mem_of_getLast?_eq_some hrun.lastSel_eq
  have hselpos : 1 ≤ sel.length := by
    cases sel with
    | nil => cases hlsmem
    | cons _ _ => simp
  obtain ⟨r, hr, _, hres⟩ := hrun.resample_eq h3
  have hfail : resampleTimeCoords rate coords = .error .tooFewPoints ↔
      sel.length = 1 ∧ lastSel = last := by
    rw [hres]
    by_cases hlen : r.length ≤ 1
    · rw [if_pos hlen]
      rcases hr with ⟨e, hl⟩ | ⟨e, _⟩
      · rw [e] at hlen
        exact ⟨fun _ => ⟨by omega, hl⟩, fun _ => rfl⟩
      · rw [e, List.length_append, List.length_singleton] at hlen
        omega
    · rw [if_neg hlen]
      constructor
      · intro h; cases h
      · rintro ⟨h, hl⟩
        rcases hr with ⟨e, _⟩ | ⟨_, hn⟩
        · rw [e] at hlen; omega
        · exact absurd hl hn
  constructor
  · rw [hfail]
    constructor
    · rintro ⟨hlen, hl⟩
      have hIlen : I.length = 1 := by rw [← hrun.buckets, List.length_map]; exact hlen
      obtain ⟨v, hv⟩ : ∃ v, I = [v] := by
        match I, hIlen with
        | [v], _ => exact ⟨v, rfl⟩
      have hsame : ∀ c ∈ coords, bucket rate c = v := by
        intro c hc
        have := hrun.isIntervals.complete h0 h1 hts c hc
        rw [hv] at this
        simpa using this
      obtain ⟨first, hf, _, _, hls⟩ := hrun.single v hsame
      refine ⟨fun c hc c' hc' => by rw [hsame c hc, hsame c' hc'], ?_⟩
      rw [hf, hrun.last_eq, ← hls, hl]
    · rintro ⟨hsame, hhl⟩
      obtain ⟨first, hf, _, hs, hls⟩ := hrun.single (bucket rate last)
        (fun c hc => hsame c hc last hlastmem)
      refine ⟨by rw [hs]; rfl, ?_⟩
      rw [hf, hrun.last_eq] at hhl
      rw [hls]
      exact Option.some.inj hhl
  · intro hno
    rw [hres] at hno ⊢
    by_cases hlen : r.length ≤ 1
    · rw [if_pos hlen] at hno
      exact absurd rfl hno
    · rw [if_neg hlen]
      exact ⟨r, rfl, by omega⟩

theorem tooFewPoints_iff_witness :
    (resampleTimeCoords 1 [[0, 0, 0], [1, 1, 1700], [0, 0, 0]] = .error .tooFewPoints ↔
      (∀ c ∈ ([[0, 0, 0], [1, 1, 1700], [0, 0, 0]] : List Coord),
        ∀ c' ∈ ([[0, 0, 0], [1, 1, 1700], [0, 0, 0]] : List Coord),
          bucket 1 c = bucket 1 c') ∧
        ([[0, 0, 0], [1, 1, 1700], [0, 0, 0]] : List Coord).head?
          = ([[0, 0, 0], [1, 1, 1700], [0, 0, 0]] : List Coord).getLast?) ∧
    (resampleTimeCoords 1 [[0, 0, 0], [1, 1, 1700], [0, 0, 0]] ≠ .error .tooFewPoints →
      ∃ out, resampleTimeCoords 1 [[0, 0, 0], [1, 1, 1700], [0, 0, 0]] = .ok out ∧
        2 ≤ out.length) :=
  tooFewPoints_iff 1 [[0, 0, 0], [1, 1, 1700], [0, 0, 0]] (by decide) (by decide)
    (by decide) (by decide) (by decide)

/-! ## Scenario B: a single bucket -/

/-- C8: when all positions of a non-empty trajectory round to one Time Bucket `b` (for
instance when all timestamps are equal), `getTimeIntervals` returns exactly that bucket,
and the sequence after the endpoint step is `[first, last]` when the first and the last
position differ in x, y or timestamp, and `[first]`, followed by the too-few-points error,
when they are coordinate-identical. -/
theorem single_bucket_scenario (rate : Int) (coords : List Coord) (b : Time)
    (hne : coords ≠ []) (h3 : ∀ c ∈ coords, 2 < c.length)
    (hsame : ∀ c ∈ coords, bucket rate c = b) :
    ∃ first last, coords.head? = some first ∧ coords.getLast? = some last ∧
      getTimeIntervals rate coords = .ok [b] ∧
      (first.take 3 ≠ last.take 3 → reducedWithLast rate coords = .ok [first, last]) ∧
      (first.take 3 ≠ last.take 3 → first.length = 3 → last.length = 3 →
        resampleTimeCoords rate coords = .ok [first, last]) ∧
      (first.take 3 = last.take 3 →
        reducedWithLast rate coords = .ok [first] ∧
        resampleTimeCoords rate coords = .error .tooFewPoints) := by
  obtain ⟨I, sel, lastSel, last, hrun⟩ := run_exists rate coords hne h3
  obtain ⟨first, hf, hI, hs, hls⟩ := hrun.single b hsame
  have hfmem : first ∈ coords := List.mem_of_mem_head? hf
  have hlmem : last ∈ coords := List.mem_of_getLast?_eq_some hrun.last_eq
  have heq := Equal_iff_take first last (h3 _ hfmem) (h3 _ hlmem)
  have hw := hrun.withLast
  rw [hs, hls] at hw
  refine ⟨first, last, hf, hrun.last_eq, by rw [hrun.intervals_eq, hI], ?_, ?_, ?_⟩
  · intro hd
    have : ¬ Equal 3 first last = true := fun h => hd (heq.mp h)
    rw [if_neg this] at hw
    exact hw
  · intro hd hf3 hl3
    have : ¬ Equal 3 first last = true := fun h => hd (heq.mp h)
    rw [if_neg this] at hw
    unfold resampleTimeCoords
    rw [hw]
    have hall : ∀ c ∈ [first] ++ [last], c.length = 3 := by
      intro c hc
      simp at hc
      rcases hc with rfl | rfl
      · exact hf3
      · exact hl3
    simp only [SetCoords_eq _ hall]
    rfl
  · intro hd
    rw [if_pos (heq.mpr hd)] at hw
    refine ⟨hw, ?_⟩
    unfold resampleTimeCoords
    rw [hw]
    rfl

theorem single_bucket_scenario_witness :
    ∃ first last : Coord,
      ([[1, 1, 50], [2, 2, 50], [3, 3, 50], [4, 4, 50], [5, 5, 50]] : List Coord).head?
        = some first ∧
      ([[1, 1, 50], [2, 2, 50], [3, 3, 50], [4, 4, 50], [5, 5, 50]] : List Coord).getLast?
        = some last ∧
      getTimeIntervals 1 [[1, 1, 50], [2, 2, 50], [3, 3, 50], [4, 4, 50], [5, 5, 50]]
        = .ok [Unix 0] ∧
      (first.take 3 ≠ last.take 3 →
        reducedWithLast 1 [[1, 1, 50], [2, 2, 50], [3, 3, 50], [4, 4, 50], [5, 5, 50]]
          = .ok [first, last]) ∧
      (first.take 3 ≠ last.take 3 → first.length = 3 → last.length = 3 →
        resampleTimeCoords 1 [[1, 1, 50], [2, 2, 50], [3, 3, 50], [4, 4, 50], [5, 5, 50]]
          = .ok [first, last]) ∧
      (first.take 3 = last.take 3 →
        reducedWithLast 1 [[1, 1, 50], [2, 2, 50], [3, 3, 50], [4, 4, 50], [5, 5, 50]]
          = .ok [first] ∧
        resampleTimeCoords 1 [[1, 1, 50], [2, 2, 50], [3, 3, 50], [4, 4, 50], [5, 5, 50]]
          = .error .tooFewPoints) :=
  single_bucket_scenario 1 [[1, 1, 50], [2, 2, 50], [3, 3, 50], [4, 4, 50], [5, 5, 50]]
    (Unix 0) (by decide) (by decide) (by decide)

/-! ## First occurrence per bucket -/

/-- C3, counterexample, in two parts.  At the rate 2562048, whose duration overflows
`int64`, the positions `(0,0,0)` and `(1,1,1)` have the distinct buckets `Unix 0` and
`Unix 1` of one minute; the only interval found is `Unix 1` and the bucket of the first
position has no position in the sequence built before the endpoint step.  At rate 2 the
timestamps 9223371974719178752 and 9223371974719179776 overflow in `time.Unix` and
`addSec`: their buckets, `2^63-1` and `-(2^63-1)` seconds, share a minute key, and the
sequence holds the second position only. -/
theorem first_per_bucket_overflow_counterexample :
    (¬ (∀ (rate : Int) (coords : List Coord), 0 < rate → coords ≠ [] →
        (∀ c ∈ coords, c.length = 3) → TimestampsInRange coords →
        ∃ intervals sel, getTimeIntervals rate coords = .ok intervals ∧
          reduceCoords rate coords intervals [] = .ok sel ∧
          ∀ c ∈ coords, bucket rate c ∈ sel.map (bucket rate))) ∧
    (¬ (∀ (rate : Int) (coords : List Coord), 0 < rate → rate ≤ 2562047 → coords ≠ [] →
        (∀ c ∈ coords, c.length = 3) →
        ∃ intervals sel, getTimeIntervals rate coords = .ok intervals ∧
          reduceCoords rate coords intervals [] = .ok sel ∧
          ∀ c ∈ coords, bucket rate c ∈ sel.map (bucket rate))) := by
  constructor
  · intro h
    obtain ⟨I, sel, hI, hsel, hall⟩ :=
      h 2562048 [[0, 0, 0], [1, 1, 1]] (by decide) (by decide) (by decide) (by decide)
    have e1 : getTimeIntervals 2562048 [[0, 0, 0], [1, 1, 1]] = .ok [Unix 1] := by decide
    rw [e1] at hI
    injection hI with hI
    subst hI
    have e2 : reduceCoords 2562048 [[0, 0, 0], [1, 1, 1]] [Unix 1] [] = .ok [[1, 1, 1]] := by
      decide
    rw [e2] at hsel
    injection hsel with hsel
    subst hsel
    exact absurd (hall [0, 0, 0] (by decide)) (by decide)
  · intro h
    obtain ⟨I, sel, hI, hsel, hall⟩ :=
      h 2 [[0, 0, 9223371974719178752], [1, 1, 9223371974719179776]] (by decide) (by decide)
        (by decide) (by decide)
    have e1 : getTimeIntervals 2 [[0, 0, 9223371974719178752], [1, 1, 9223371974719179776]]
        = .ok [-(2 ^ 63 - 1) * Second] := by decide
    rw [e1] at hI
    injection hI with hI
    subst hI
    have e2 : reduceCoords 2 [[0, 0, 9223371974719178752], [1, 1, 9223371974719179776]]
        [-(2 ^ 63 - 1) * Second] [] = .ok [[1, 1, 9223371974719179776]] := by
      decide
    rw [e2] at hsel
    injection hsel with hsel
    subst hsel
    exact absurd (hall [0, 0, 9223371974719178752] (by decide)) (by decide)

/-- C3 (amended): for every 3D trajectory whose timestamps are of magnitude at most `2^62`
seconds and every rate with `0 < rate ≤ 2562047` (the rates whose duration fits a
`time.Duration`), the sequence built before the endpoint step holds exactly one position
per distinct Time Bucket of the input, in strictly ascending bucket order, and the position
chosen for a bucket is the one of smallest index among the positions of that bucket. -/
theorem first_per_bucket (rate : Int) (coords : List Coord) (h0 : 0 < rate)
    (h1 : rate ≤ 2562047) (h3 : ∀ c ∈ coords, 2 < c.length)
    (hts : TimestampsInRange coords) :
    ∃ intervals sel, getTimeIntervals rate coords = .ok intervals ∧
      reduceCoords rate coords intervals [] = .ok sel ∧
      (sel.map (bucket rate)).Sorted (· < ·) ∧
      (∀ c ∈ coords, bucket rate c ∈ sel.map (bucket rate)) ∧
      (∀ s ∈ sel, ∃ i : Nat, coords[i]? = some s ∧
        ∀ j : Nat, j < i → ∀ c, coords[j]? = some c → bucket rate c ≠ bucket rate s) := by
  have hI := isIntervals_sortTimes rate coords
  have hget := getTimeIntervals_eq rate coords h3
  generalize sortTimes ((setAll [] (coords.map (bucket rate))).map Prod.snd) = I at hI hget
  obtain ⟨hb, hf⟩ := firsts_spec rate coords I hI.sound
  have hsel := reduceCoords_eq rate coords I [] h3
  rw [List.nil_append] at hsel
  refine ⟨I, firsts rate coords I, hget, hsel, ?_, ?_, ?_⟩
  · rw [hb]; exact hI.sorted
  · intro c hc
    rw [hb]; exact hI.complete h0 h1 hts c hc
  · intro s hs
    exact firstIn_index rate coords s (hf s hs).2

theorem first_per_bucket_witness :
    ∃ intervals sel,
      getTimeIntervals 2 [[0, 0, 3600], [1, 1, 7200], [2, 2, 10800], [3, 3, 14400]]
        = .ok intervals ∧
      reduceCoords 2 [[0, 0, 3600], [1, 1, 7200], [2, 2, 10800], [3, 3, 14400]] intervals []
        = .ok sel ∧
      (sel.map (bucket 2)).Sorted (· < ·) ∧
      (∀ c ∈ ([[0, 0, 3600], [1, 1, 7200], [2, 2, 10800], [3, 3, 14400]] : List Coord),
        bucket 2 c ∈ sel.map (bucket 2)) ∧
      (∀ s ∈ sel, ∃ i : Nat,
        ([[0, 0, 3600], [1, 1, 7200], [2, 2, 10800], [3, 3, 14400]] : List Coord)[i]?
          = some s ∧
        ∀ j : Nat, j < i → ∀ c,
          ([[0, 0, 3600], [1, 1, 7200], [2, 2, 10800], [3, 3, 14400]] : List Coord)[j]?
            = some c → bucket 2 c ≠ bucket 2 s) :=
  first_per_bucket 2 [[0, 0, 3600], [1, 1, 7200], [2, 2, 10800], [3, 3, 14400]]
    (by decide) (by decide) (by decide) (by decide)

/-! ## Chronological order -/

/-- C4, counterexample: the input `(1,1,0), (0,0,9223372036854774784)` is in chronological
order, but `time.Unix` wraps around for the second timestamp, whose bucket then sorts
first: at rate 1 the output is the second position, the first, and the second again, and
its timestamps decrease from the first to the second. -/
theorem chronological_overflow_counterexample :
    ¬ (∀ (rate : Int) (coords out : List Coord), 0 < rate →
        (coords.map timestamp).Sorted (· ≤ ·) →
        resampleTimeCoords rate coords = .ok out →
        (out.map timestamp).Sorted (· ≤ ·)) := by
  intro h
  have := h 1 [[1, 1, 0], [0, 0, 9223372036854774784]]
    [[0, 0, 9223372036854774784], [1, 1, 0], [0, 0, 9223372036854774784]]
    (by decide) (by decide) (by decide)
  exact absurd this (by decide)

/-- C4 (amended): when the timestamps of the input are of magnitude at most `2^62` seconds
and non-decreasing along the sequence, the timestamps of the output of `resampleTime` (a
forced final position included) are non-decreasing along the output, for every rate. -/
theorem resampleTime_chronological (rate : Int) (coords out : List Coord)
    (hts : TimestampsInRange coords)
    (hs : (coords.map timestamp).Sorted (· ≤ ·))
    (h : resampleTimeCoords rate coords = .ok out) :
    (out.map timestamp).Sorted (· ≤ ·) := by
  obtain ⟨I, sel, lastSel, last, hrun, hout, _, _⟩ := run_of_ok rate coords out h
  have hsel : (sel.map timestamp).Sorted (· ≤ ·) := by
    have hb : (sel.map (bucket rate)).Pairwise (· < ·) := by
      rw [hrun.buckets]; exact hrun.isIntervals.sorted
    rw [List.pairwise_map] at hb
    show (sel.map timestamp).Pairwise (· ≤ ·)
    rw [List.pairwise_map]
    refine hb.imp_of_mem ?_
    intro a b ha hb' hab
    by_contra hc
    have : bucket rate b ≤ bucket rate a :=
      bucket_mono rate b a (hts b (hrun.first b hb').1) (hts a (hrun.first a ha).1)
        (le_of_lt (not_le.mp hc))
    exact absurd hab (not_lt.mpr this)
  by_cases he : Equal 3 lastSel last = true
  · rw [if_pos he] at hout
    rw [hout]; exact hsel
  · rw [if_neg he] at hout
    rw [hout, List.map_append]
    show ((sel.map timestamp) ++ [last].map timestamp).Pairwise (· ≤ ·)
    rw [List.pairwise_append]
    refine ⟨hsel, by simp, ?_⟩
    intro a ha b hb
    obtain ⟨c, hc, rfl⟩ := List.mem_map.mp ha
    have hb' : b = timestamp last := by simpa using hb
    rw [hb']
    exact sorted_le_last_timestamp coords last hs hrun.last_eq c (hrun.first c hc).1

theorem resampleTime_chronological_witness :
    TimestampsInRange [[0, 0, 0], [5, 5, 1700], [9, 9, 7200], [7, 7, 7300]] ∧
    (([[0, 0, 0], [5, 5, 1700], [9, 9, 7200], [7, 7, 7300]] : List Coord).map
        timestamp).Sorted (· ≤ ·) ∧
      resampleTimeCoords 1 [[0, 0, 0], [5, 5, 1700], [9, 9, 7200], [7, 7, 7300]]
        = .ok [[0, 0, 0], [9, 9, 7200], [7, 7, 7300]] ∧
      (([[0, 0, 0], [9, 9, 7200], [7, 7, 7300]] : List Coord).map timestamp).Sorted (· ≤ ·) :=
  ⟨by decide, by decide, by decide,
   resampleTime_chronological 1 [[0, 0, 0], [5, 5, 1700], [9, 9, 7200], [7, 7, 7300]]
     [[0, 0, 0], [9, 9, 7200], [7, 7, 7300]] (by decide) (by decide) (by decide)⟩

/-! ## Length of the output -/

/-- C6, counterexample: at rate 1 the positions `(0,0,0)` and `(1,1,1)` lie in one Time
Bucket; the first is selected, the second is appended by the endpoint step, and the output
holds both. -/
theorem one_per_bucket_counterexample :
    ¬ (∀ (rate : Int) (coords out : List Coord), 0 < rate →
        resampleTimeCoords rate coords = .ok out → (out.map (bucket rate)).Nodup) := by
  intro h
  have := h 1 [[0, 0, 0], [1, 1, 1]] [[0, 0, 0], [1, 1, 1]] (by decide) (by decide)
  exact absurd this (by decide)

/-- C6 (amended): whenever `resampleTime` returns an output, no two positions of the
output have the same Time Bucket, except that the final position, when it is the one
appended by the endpoint step, may share its bucket with an earlier position: the output
is a sequence of positions of strictly ascending buckets, possibly followed by the last
position of the input. -/
theorem one_per_bucket_except_last (rate : Int) (coords out : List Coord)
    (h : resampleTimeCoords rate coords = .ok out) :
    ∃ sel last, coords.getLast? = some last ∧
      (sel.map (bucket rate)).Sorted (· < ·) ∧ (sel.map (bucket rate)).Nodup ∧
      (out = sel ∨ out = sel ++ [last]) := by
  obtain ⟨I, sel, lastSel, last, hrun, hout, _, _⟩ := run_of_ok rate coords out h
  refine ⟨sel, last, hrun.last_eq, ?_, hrun.sel_nodup, ?_⟩
  · rw [hrun.buckets]; exact hrun.isIntervals.sorted
  · rw [hout]
    split
    · exact Or.inl rfl
    · exact Or.inr rfl

theorem one_per_bucket_except_last_witness :
    resampleTimeCoords 1 [[0, 0, 0], [5, 5, 1700], [9, 9, 7200], [7, 7, 7300]]
        = .ok [[0, 0, 0], [9, 9, 7200], [7, 7, 7300]] ∧
      ∃ (sel : List Coord) (last : Coord),
        ([[0, 0, 0], [5, 5, 1700], [9, 9, 7200], [7, 7, 7300]] : List Coord).getLast?
          = some last ∧
        (sel.map (bucket 1)).Sorted (· < ·) ∧ (sel.map (bucket 1)).Nodup ∧
        (([[0, 0, 0], [9, 9, 7200], [7, 7, 7300]] : List Coord) = sel ∨
          ([[0, 0, 0], [9, 9, 7200], [7, 7, 7300]] : List Coord) = sel ++ [last]) :=
  ⟨by decide,
   one_per_bucket_except_last 1 [[0, 0, 0], [5, 5, 1700], [9, 9, 7200], [7, 7, 7300]]
     [[0, 0, 0], [9, 9, 7200], [7, 7, 7300]] (by decide)⟩

/-! ## Bucket rounding -/

/-- C10, counterexample, in two parts.  At rate 5 the timestamp 0 (the unix epoch) is
rounded to the instant 7200 seconds after the epoch, which is not a multiple of `5 * 3600`
seconds since the epoch: `Round` counts the multiples from the zero time, 17259888 hours
before the epoch, and 17259888 is not a multiple of 5.  At rate 1 the timestamp
9223372036854774784 is rounded to an instant that is not the one of the nearest hour,
9223372036854774000: `time.Unix` wraps around and `Round` rounds the wrapped time. -/
theorem roundTime_epoch_counterexample :
    (¬ (∀ (rate ts : Int), 0 < rate → rate ≤ 2562047 → -2 ^ 62 ≤ ts → ts ≤ 2 ^ 62 →
        ∃ k : Int, roundTime rate ts = Unix (k * (rate * 3600)) ∧
          -(rate * 3600) < 2 * (k * (rate * 3600) - ts) ∧
          2 * (k * (rate * 3600) - ts) ≤ rate * 3600)) ∧
    (¬ (∀ ts : Int,
        ∃ k : Int, roundTime 1 ts = Unix (k * (1 * 3600)) ∧
          -(1 * 3600) < 2 * (k * (1 * 3600) - ts) ∧
          2 * (k * (1 * 3600) - ts) ≤ 1 * 3600)) := by
  constructor
  · intro h
    obtain ⟨k, hk, hk1, hk2⟩ := h 5 0 (by decide) (by decide) (by decide) (by decide)
    have hk0 : k = 0 := by omega
    subst hk0
    exact absurd hk (by decide)
  · intro h
    obtain ⟨k, hk, hk1, hk2⟩ := h 9223372036854774784
    have hk0 : k = 2562047788015215 := by omega
    subst hk0
    exact absurd hk (by decide)

/-- C10 (amended): for every rate with `0 < rate ≤ 2562047` (rate hours fits a
`time.Duration`) and every timestamp `ts` of magnitude at most `2^62` seconds,
`roundTime(ts)` is the instant whose number of seconds since the zero time (the seconds
since the epoch plus 62135596800) is the integer multiple of `rate * 3600` nearest to that
of `ts`, a timestamp halfway between two multiples going to the later one; when `rate`
divides 17259888 (the hours from the zero time to the epoch) its number of seconds since
the epoch is the multiple of `rate * 3600` nearest to `ts`, with the same halfway rule. -/
theorem roundTime_nearest (rate ts : Int) (h0 : 0 < rate) (h1 : rate ≤ 2562047)
    (hts1 : -2 ^ 62 ≤ ts) (hts2 : ts ≤ 2 ^ 62) :
    (∃ k : Int, roundTime rate ts = k * (rate * 3600) * Second ∧
      -(rate * 3600) < 2 * (k * (rate * 3600) - (ts + unixToInternal)) ∧
      2 * (k * (rate * 3600) - (ts + unixToInternal)) ≤ rate * 3600) ∧
    (rate ∣ 17259888 →
      ∃ k : Int, roundTime rate ts = Unix (k * (rate * 3600)) ∧
        -(rate * 3600) < 2 * (k * (rate * 3600) - ts) ∧
        2 * (k * (rate * 3600) - ts) ≤ rate * 3600) := by
  have hd : 0 < rate * Hour := by unfold Hour Second; omega
  obtain ⟨k, e, hl, hu⟩ := roundExact_of_pos ((ts + unixToInternal) * Second) (rate * Hour) hd
  have hr : roundTime rate ts
      = roundExact ((ts + unixToInternal) * Second) (rate * Hour) := by
    rw [roundTime_exact rate ts hts1 hts2, wrap64_rate_mul_Hour rate h0 h1]
  rw [← hr] at e hl hu
  have e' : roundTime rate ts = k * rate * 3600000000000 := by
    rw [e]; unfold Hour Second; ring
  have e3 : k * (rate * 3600) = k * rate * 3600 := by ring
  have first : roundTime rate ts = k * (rate * 3600) * Second ∧
      -(rate * 3600) < 2 * (k * (rate * 3600) - (ts + unixToInternal)) ∧
      2 * (k * (rate * 3600) - (ts + unixToInternal)) ≤ rate * 3600 := by
    rw [e'] at hl hu
    rw [e3]
    generalize k * rate = kr at *
    have hl' : (-(rate * (3600 * 1000000000)) : Int)
        < 2 * (kr * 3600000000000 - (ts + 62135596800) * 1000000000) := hl
    have hu' : (2 * (kr * 3600000000000 - (ts + 62135596800) * 1000000000) : Int)
        ≤ rate * (3600 * 1000000000) := hu
    refine ⟨?_, ?_, ?_⟩
    · rw [e']
      show (kr * 3600000000000 : Int) = kr * 3600 * 1000000000
      omega
    · show (-(rate * 3600) : Int) < 2 * (kr * 3600 - (ts + 62135596800))
      omega
    · show (2 * (kr * 3600 - (ts + 62135596800)) : Int) ≤ rate * 3600
      omega
  refine ⟨⟨k, first⟩, ?_⟩
  rintro ⟨q, hq⟩
  obtain ⟨f1, f2, f3⟩ := first
  have e4 : (k - q) * (rate * 3600) = k * (rate * 3600) - unixToInternal := by
    unfold unixToInternal
    linear_combination (3600 : Int) * hq
  refine ⟨k - q, ?_, ?_, ?_⟩
  · rw [f1, e4]
    unfold Unix
    have hw : wrap64 (k * (rate * 3600) - unixToInternal + unixToInternal)
        = k * (rate * 3600) := by
      rw [sub_add_cancel]
      generalize k * (rate * 3600) = x at f2 f3
      have f2' : (-(rate * 3600) : Int) < 2 * (x - (ts + 62135596800)) := f2
      have f3' : (2 * (x - (ts + 62135596800)) : Int) ≤ rate * 3600 := f3
      apply wrap64_of_range <;> omega
    rw [hw]
  · rw [e4]; linarith
  · rw [e4]; linarith

theorem roundTime_nearest_witness :
    ((0 : Int) < 2 ∧ (2 : Int) ≤ 2562047 ∧ (2 : Int) ∣ 17259888 ∧
      (-2 ^ 62 : Int) ≤ 3600 ∧ (3600 : Int) ≤ 2 ^ 62) ∧
    (∃ k : Int, roundTime 2 3600 = k * (2 * 3600) * Second ∧
      -(2 * 3600) < 2 * (k * (2 * 3600) - (3600 + unixToInternal)) ∧
      2 * (k * (2 * 3600) - (3600 + unixToInternal)) ≤ 2 * 3600) ∧
    ((2 : Int) ∣ 17259888 →
      ∃ k : Int, roundTime 2 3600 = Unix (k * (2 * 3600)) ∧
        -(2 * 3600) < 2 * (k * (2 * 3600) - 3600) ∧
        2 * (k * (2 * 3600) - 3600) ≤ 2 * 3600) :=
  ⟨⟨by decide, by decide, by decide, by decide, by decide⟩,
   roundTime_nearest 2 3600 (by decide) (by decide) (by decide) (by decide)⟩

/-! ## Scenario A: five positions one hour apart, rate two hours -/

theorem roundTime_two (ts : Int) (h1 : -2 ^ 62 ≤ ts) (h2 : ts ≤ 2 ^ 62) :
    roundTime 2 ts = (ts + 3600) / 7200 * 7200 * Second + unixToInternal * Second := by
  have hw : wrap64 (2 * Hour) = 7200000000000 := by decide
  obtain ⟨k, e, hl, hu⟩ :=
    roundExact_of_pos ((ts + unixToInternal) * Second) 7200000000000 (by decide)
  rw [roundTime_exact 2 ts h1 h2, hw, e]
  rw [e] at hl hu
  have hl' : (-7200000000000 : Int)
      < 2 * (k * 7200000000000 - (ts + 62135596800) * 1000000000) := hl
  have hu' : (2 * (k * 7200000000000 - (ts + 62135596800) * 1000000000) : Int)
      ≤ 7200000000000 := hu
  show (k * 7200000000000 : Int)
    = (ts + 3600) / 7200 * 7200 * 1000000000 + 62135596800 * 1000000000
  omega

/-- C7, counterexample: with the start time `t0 = 0` (the epoch, the start of a two-hour
bucket) the timestamp 3600 lies halfway and is rounded up, the buckets group the positions
as (1st), (2nd, 3rd), (4th, 5th), and the output has four positions: the 1st, 2nd, 4th
and, appended by the endpoint step, the 5th. -/
theorem scenarioA_counterexample :
    ¬ (∀ t0 x0 y0 x1 y1 x2 y2 x3 y3 x4 y4 : Int,
        ∃ out, resampleTimeCoords 2 (scenarioA t0 x0 y0 x1 y1 x2 y2 x3 y3 x4 y4) = .ok out ∧
          out.length = 3) := by
  intro h
  obtain ⟨out, hout, hlen⟩ := h 0 0 0 1 1 2 2 3 3 4 4
  have e : resampleTimeCoords 2 (scenarioA 0 0 0 1 1 2 2 3 3 4 4)
      = .ok [[0, 0, 0], [1, 1, 3600], [3, 3, 10800], [4, 4, 14400]] := by decide
  rw [e] at hout
  injection hout with hout
  subst hout
  exact absurd hlen (by decide)

/-- C7 (amended): Scenario A holds for the start times `t0` with `t0 mod 7200 ≥ 3600` (a
start in the second half of a two-hour bucket) whose five timestamps have magnitude at most
`2^62` seconds: time resampling at rate 2 hours of five positions with the timestamps
`t0, t0+3600, t0+7200, t0+10800, t0+14400` finds three Time Buckets, grouping the positions
as (1st, 2nd), (3rd, 4th), (5th), and returns exactly the 1st, 3rd and 5th position.  The
magnitude bound excludes no trajectory the program can receive: its timestamps are float64
values, and five of them exactly one hour apart exist only at magnitudes below `2^58`
(from `2^57` on they are multiples of 32, and 3600 is not); it keeps the
conversion `int64(coords[i][2])` and `time.Unix` exact on the integer timestamps used
here. -/
theorem scenarioA_three_buckets (t0 x0 y0 x1 y1 x2 y2 x3 y3 x4 y4 : Int)
    (ht : 3600 ≤ t0 % 7200) (hlo : -2 ^ 62 ≤ t0) (hhi : t0 + 14400 ≤ 2 ^ 62) :
    ∃ b1 b2 b3 : Time,
      getTimeIntervals 2 (scenarioA t0 x0 y0 x1 y1 x2 y2 x3 y3 x4 y4) = .ok [b1, b2, b3] ∧
      b1 < b2 ∧ b2 < b3 ∧
      (scenarioA t0 x0 y0 x1 y1 x2 y2 x3 y3 x4 y4).map (bucket 2) = [b1, b1, b2, b2, b3] ∧
      resampleTimeCoords 2 (scenarioA t0 x0 y0 x1 y1 x2 y2 x3 y3 x4 y4)
        = .ok [[x0, y0, t0], [x2, y2, t0 + 7200], [x4, y4, t0 + 14400]] := by
  have hlo' : (-4611686018427387904 : Int) ≤ t0 := hlo
  have hhi' : (t0 + 14400 : Int) ≤ 4611686018427387904 := hhi
  have r0 := roundTime_two t0 hlo (by omega)
  have r1 := roundTime_two (t0 + 3600) (by omega) (by omega)
  have r2 := roundTime_two (t0 + 7200) (by omega) (by omega)
  have r3 := roundTime_two (t0 + 10800) (by omega) (by omega)
  have r4 := roundTime_two (t0 + 14400) (by omega) (by omega)
  have i0 : int64 t0 = t0 := int64_of_range _ hlo (by omega)
  have i1 : int64 (t0 + 3600) = t0 + 3600 := int64_of_range _ (by omega) (by omega)
  have i2 : int64 (t0 + 7200) = t0 + 7200 := int64_of_range _ (by omega) (by omega)
  have i3 : int64 (t0 + 10800) = t0 + 10800 := int64_of_range _ (by omega) (by omega)
  have i4 : int64 (t0 + 14400) = t0 + 14400 := int64_of_range _ (by omega) (by omega)
  have hB1 : roundTime 2 (t0 + 3600) = roundTime 2 t0 := by
    rw [r1, r0]
    show ((t0 + 3600 + 3600) / 7200 * 7200 * 1000000000 + 62135596800 * 1000000000 : Int)
      = (t0 + 3600) / 7200 * 7200 * 1000000000 + 62135596800 * 1000000000
    omega
  have hB2 : roundTime 2 (t0 + 7200) = roundTime 2 t0 + 7200000000000 := by
    rw [r2, r0]
    show ((t0 + 7200 + 3600) / 7200 * 7200 * 1000000000 + 62135596800 * 1000000000 : Int)
      = (t0 + 3600) / 7200 * 7200 * 1000000000 + 62135596800 * 1000000000 + 7200000000000
    omega
  have hB3 : roundTime 2 (t0 + 10800) = roundTime 2 t0 + 7200000000000 := by
    rw [r3, r0]
    show ((t0 + 10800 + 3600) / 7200 * 7200 * 1000000000 + 62135596800 * 1000000000 : Int)
      = (t0 + 3600) / 7200 * 7200 * 1000000000 + 62135596800 * 1000000000 + 7200000000000
    omega
  have hB4 : roundTime 2 (t0 + 14400) = roundTime 2 t0 + 14400000000000 := by
    rw [r4, r0]
    show ((t0 + 14400 + 3600) / 7200 * 7200 * 1000000000 + 62135596800 * 1000000000 : Int)
      = (t0 + 3600) / 7200 * 7200 * 1000000000 + 62135596800 * 1000000000 + 14400000000000
    omega
  have hw : ∀ c ∈ scenarioA t0 x0 y0 x1 y1 x2 y2 x3 y3 x4 y4, 2 < c.length := by
    intro c hc
    simp [scenarioA] at hc
    rcases hc with rfl | rfl | rfl | rfl | rfl <;> simp
  have hbs : (scenarioA t0 x0 y0 x1 y1 x2 y2 x3 y3 x4 y4).map (bucket 2)
      = [roundTime 2 t0, roundTime 2 t0, roundTime 2 t0 + 7200000000000,
          roundTime 2 t0 + 7200000000000, roundTime 2 t0 + 14400000000000] := by
    simp [scenarioA, bucket, timestamp, i0, i1, i2, i3, i4, hB1, hB2, hB3, hB4]
  obtain ⟨m, hm, hm1, hm2⟩ : ∃ m : Int, roundTime 2 t0 = m * 60000000000 ∧
      -2 ^ 56 - 2 ^ 55 < m ∧ m < 2 ^ 56 + 2 ^ 55 := by
    refine ⟨(t0 + 3600) / 7200 * 120 + 1035593280, ?_, ?_, ?_⟩
    · rw [r0]
      show ((t0 + 3600) / 7200 * 7200 * 1000000000 + 62135596800 * 1000000000 : Int)
        = ((t0 + 3600) / 7200 * 120 + 1035593280) * 60000000000
      omega
    · show (-108086391056891904 : Int) < (t0 + 3600) / 7200 * 120 + 1035593280
      omega
    · show ((t0 + 3600) / 7200 * 120 + 1035593280 : Int) < 108086391056891904
      omega
  have hm1' : (-108086391056891904 : Int) < m := hm1
  have hm2' : (m : Int) < 108086391056891904 := hm2
  obtain ⟨B, hB⟩ : ∃ B : Int, roundTime 2 t0 = B := ⟨_, rfl⟩
  rw [hB] at hbs hB1 hB2 hB3 hB4 hm
  have hm' : (B : Int) = m * 60000000000 := hm
  have eB1 : (B + 7200000000000 : Int) = (m + 120) * 60000000000 := by omega
  have eB2 : (B + 14400000000000 : Int) = (m + 240) * 60000000000 := by omega
  have hI : getTimeIntervals 2 (scenarioA t0 x0 y0 x1 y1 x2 y2 x3 y3 x4 y4)
      = .ok [B, B + 7200000000000, B + 14400000000000] := by
    rw [getTimeIntervals_eq _ _ hw, hbs]
    have hF1 : ¬ Format B = Format (B + 7200000000000) := by
      rw [eB1, hm']
      intro h
      have := Format_minutes_inj m (m + 120) (by constructor <;> omega)
        (by constructor <;> omega) h
      omega
    have hF2 : ¬ Format B = Format (B + 14400000000000) := by
      rw [eB2, hm']
      intro h
      have := Format_minutes_inj m (m + 240) (by constructor <;> omega)
        (by constructor <;> omega) h
      omega
    have hF3 : ¬ Format (B + 7200000000000) = Format (B + 14400000000000) := by
      rw [eB1, eB2]
      intro h
      have := Format_minutes_inj (m + 120) (m + 240) (by constructor <;> omega)
        (by constructor <;> omega) h
      omega
    have hsorted : ([B, B + 7200000000000, B + 14400000000000] : List Int).Sorted (· ≤ ·) := by
      refine List.Pairwise.cons ?_ (List.Pairwise.cons ?_ (List.Pairwise.cons ?_ List.Pairwise.nil))
      · intro a ha
        simp only [List.mem_cons, List.mem_singleton, List.not_mem_nil, or_false] at ha
        rcases ha with rfl | rfl <;> omega
      · intro a ha
        simp only [List.mem_singleton] at ha
        subst ha; omega
      · intro a ha; cases ha
    have hmap : (setAll [] [B, B, B + 7200000000000, B + 7200000000000, B + 14400000000000]).map
        Prod.snd = [B, B + 7200000000000, B + 14400000000000] := by
      simp only [setAll, List.foldl, mapSet, hF1, hF2, hF3, if_true, if_false, List.map]
    rw [hmap]
    unfold sortTimes
    rw [List.Sorted.insertionSort_eq hsorted]
  have hsel : reduceCoords 2 (scenarioA t0 x0 y0 x1 y1 x2 y2 x3 y3 x4 y4)
      [B, B + 7200000000000, B + 14400000000000] []
      = .ok [[x0, y0, t0], [x2, y2, t0 + 7200], [x4, y4, t0 + 14400]] := by
    rw [reduceCoords_eq _ _ _ _ hw]
    simp [firsts, firstIn, scenarioA, bucket, timestamp, i0, i1, i2, i3, i4,
      hB, hB1, hB2, hB3, hB4]
  refine ⟨_, _, _, hI, ?_, ?_, hbs, ?_⟩
  · show (B : Int) < B + 7200000000000
    omega
  · show (B + 7200000000000 : Int) < B + 14400000000000
    omega
  · unfold resampleTimeCoords reducedWithLast
    rw [hI]
    simp only
    rw [hsel]
    simp only
    rw [addLast_eq _ _ [x4, y4, t0 + 14400] [x4, y4, t0 + 14400] (by simp)
      (by simp [scenarioA]), if_pos (Equal_self _)]
    simp only
    rw [SetCoords_eq _ (by simp)]
    simp

theorem scenarioA_three_buckets_witness :
    ((3600 : Int) ≤ 3600 % 7200 ∧ (-2 ^ 62 : Int) ≤ 3600 ∧ (3600 + 14400 : Int) ≤ 2 ^ 62) ∧
    ∃ b1 b2 b3 : Time,
      getTimeIntervals 2 (scenarioA 3600 0 0 1 1 2 2 3 3 4 4) = .ok [b1, b2, b3] ∧
      b1 < b2 ∧ b2 < b3 ∧
      (scenarioA 3600 0 0 1 1 2 2 3 3 4 4).map (bucket 2) = [b1, b1, b2, b2, b3] ∧
      resampleTimeCoords 2 (scenarioA 3600 0 0 1 1 2 2 3 3 4 4)
        = .ok [[0, 0, 3600], [2, 2, 3600 + 7200], [4, 4, 3600 + 14400]] :=
  ⟨⟨by decide, by decide, by decide⟩,
   scenarioA_three_buckets 3600 0 0 1 1 2 2 3 3 4 4 (by decide) (by decide) (by decide)⟩

/-! ## Re-application -/

theorem sorted_lt_ext (l₁ l₂ : List Time) (h₁ : l₁.Sorted (· < ·)) (h₂ : l₂.Sorted (· < ·))
    (h : ∀ v, v ∈ l₁ ↔ v ∈ l₂) : l₁ = l₂ := by
  have hp : List.Perm l₁ l₂ := (List.perm_ext_iff_of_nodup h₁.nodup h₂.nodup).mpr h
  exact List.eq_of_perm_of_sorted hp h₁.le_of_lt h₂.le_of_lt

theorem filterMap_of_first (f : Time → Option Coord) (g : Coord → Time) (l : List Coord)
    (I : List Time) (hg : l.map g = I) (hf : ∀ s ∈ l, f (g s) = some s) :
    I.filterMap f = l := by
  subst hg
  induction l with
  | nil => rfl
  | cons a l ih =>
    have ha : f (g a) = some a := hf a (List.mem_cons_self _ _)
    have := ih (fun s hs => hf s (List.mem_cons_of_mem _ hs))
    simp [ha, this]

theorem firstIn_append_of_nodup (rate : Int) (sel t : List Coord)
    (hn : (sel.map (bucket rate)).Nodup) (s : Coord) (hs : s ∈ sel) :
    firstIn rate (sel ++ t) (bucket rate s) = some s := by
  induction sel with
  | nil => cases hs
  | cons a l ih =>
    rw [List.map_cons, List.nodup_cons] at hn
    rcases List.mem_cons.mp hs with h | h
    · subst h
      simp [firstIn]
    · have hne : ¬ bucket rate a = bucket rate s := by
        intro e
        exact hn.1 (e ▸ List.mem_map.mpr ⟨s, h, rfl⟩)
      have := ih hn.2 h
      unfold firstIn at this ⊢
      rw [List.cons_append, List.find?_cons_of_neg _ (by simpa using hne)]
      exact this

/-- On an output of `resampleTime`, at the same rate, the loops and the endpoint step
rebuild that output; it has at least two positions, of three ordinates each. -/
theorem reducedWithLast_again (rate : Int) (coords out : List Coord)
    (h : resampleTimeCoords rate coords = .ok out) :
    reducedWithLast rate out = .ok out ∧ 2 ≤ out.length ∧ ∀ c ∈ out, c.length = 3 := by
  obtain ⟨I, sel, lastSel, last, hrun, hout, hlen, hall⟩ := run_of_ok rate coords out h
  have hne : out ≠ [] := by
    intro e; rw [e] at hlen; simp at hlen
  have hw : ∀ c ∈ out, 2 < c.length := fun c hc => by rw [hall c hc]; omega
  obtain ⟨I₂, sel₂, lastSel₂, last₂, hrun₂⟩ := run_exists rate out hne hw
  -- the output is `sel`, possibly followed by the last position of the input
  obtain ⟨t, ht, htl⟩ : ∃ t, out = sel ++ t ∧ (t = [] ∨ t = [last]) := by
    by_cases he : Equal 3 lastSel last = true
    · rw [if_pos he] at hout
      exact ⟨[], by rw [hout, List.append_nil], Or.inl rfl⟩
    · rw [if_neg he] at hout
      exact ⟨[last], hout, Or.inr rfl⟩
  have hbI : ∀ c ∈ out, bucket rate c ∈ I := by
    intro c hc
    rw [ht] at hc
    rcases List.mem_append.mp hc with hc | hc
    · rw [← hrun.buckets]; exact List.mem_map.mpr ⟨c, hc, rfl⟩
    · rcases htl with e | e
      · rw [e] at hc; cases hc
      · rw [e] at hc
        rw [List.mem_singleton.mp hc]
        exact hrun.isIntervals.last last hrun.last_eq
  have hIb : ∀ v ∈ I, ∃ c ∈ out, bucket rate c = v := by
    intro v hv
    rw [← hrun.buckets] at hv
    obtain ⟨c, hc, e⟩ := List.mem_map.mp hv
    exact ⟨c, by rw [ht]; exact List.mem_append_left _ hc, e⟩
  -- the same intervals are found
  have hI : I₂ = I := by
    apply sorted_lt_ext _ _ hrun₂.isIntervals.sorted hrun.isIntervals.sorted
    intro v
    constructor
    · intro hv
      obtain ⟨c, hc, e⟩ := hrun₂.isIntervals.sound v hv
      rw [← e]; exact hbI c hc
    · intro hv
      obtain ⟨c, hc, e⟩ := hIb v hv
      obtain ⟨w, hw₂, ew⟩ := hrun₂.isIntervals.covers c hc
      have hwI : w ∈ I := by
        obtain ⟨c', hc', e'⟩ := hrun₂.isIntervals.sound w hw₂
        rw [← e']; exact hbI c' hc'
      rw [e] at ew
      rw [← hrun.isIntervals.keyInj w hwI v hv ew]
      exact hw₂
  -- the same positions are selected
  have hsel : sel₂ = sel := by
    have h1 : I.filterMap (firstIn rate out) = sel₂ :=
      filterMap_of_first _ (bucket rate) sel₂ I (by rw [hrun₂.buckets, hI])
        (fun s hs => (hrun₂.first s hs).2)
    have h2 : I.filterMap (firstIn rate out) = sel :=
      filterMap_of_first _ (bucket rate) sel I hrun.buckets
        (fun s hs => by rw [ht]; exact firstIn_append_of_nodup rate sel t hrun.sel_nodup s hs)
    rw [← h1, h2]
  have hls : lastSel₂ = lastSel := by
    have := hrun₂.lastSel_eq
    rw [hsel, hrun.lastSel_eq] at this
    exact (Option.some.inj this).symm
  -- the endpoint step rebuilds the output
  have hw₂ := hrun₂.withLast
  rw [hsel, hls] at hw₂
  have hre : reducedWithLast rate out = .ok out := by
    by_cases he : Equal 3 lastSel last = true
    · rw [if_pos he] at hout
      have hl₂ : last₂ = lastSel := by
        have := hrun₂.last_eq
        rw [hout, hrun.lastSel_eq] at this
        exact (Option.some.inj this).symm
      rw [hl₂, if_pos (Equal_self _)] at hw₂
      rw [hw₂, hout]
    · rw [if_neg he] at hout
      have hl₂ : last₂ = last := by
        have := hrun₂.last_eq
        rw [hout, List.getLast?_concat] at this
        exact (Option.some.inj this).symm
      rw [hl₂, if_neg he] at hw₂
      rw [hw₂, hout]
  exact ⟨hre, hlen, hall⟩

/-- C9, refuted: there is no trajectory and rate on which `resampleTime` succeeds and whose
reduced trajectory is changed (or rejected) by a second application at the same rate. -/
theorem not_idempotent_counterexample :
    ¬ ∃ (rate : Int) (coords out : List Coord), 0 < rate ∧
        resampleTimeCoords rate coords = .ok out ∧
        resampleTimeCoords rate out ≠ .ok out := by
  rintro ⟨rate, coords, out, _, h, hne⟩
  obtain ⟨hre, hlen, hall⟩ := reducedWithLast_again rate coords out h
  apply hne
  unfold resampleTimeCoords
  rw [hre]
  simp only
  rw [if_neg (by omega), SetCoords_eq out hall]

/-- C9 (amended): time resampling is idempotent: whenever `resampleTime` succeeds on a
trajectory, applying `resampleTime` with the same rate to the reduced trajectory succeeds
and yields the reduced trajectory itself (no further points are merged). -/
theorem resampleTime_idempotent (rate : Int) (coords out : List Coord)
    (h : resampleTimeCoords rate coords = .ok out) :
    resampleTimeCoords rate out = .ok out := by
  obtain ⟨hre, hlen, hall⟩ := reducedWithLast_again rate coords out h
  have hlong : ¬ out.length ≤ 1 := by omega
  unfold resampleTimeCoords
  rw [hre]
  simp only
  rw [if_neg hlong]
  exact SetCoords_eq out hall

theorem resampleTime_idempotent_witness :
    resampleTimeCoords 1 [[0, 0, 0], [5, 5, 1700], [9, 9, 7200], [7, 7, 7300]]
        = .ok [[0, 0, 0], [9, 9, 7200], [7, 7, 7300]] ∧
      resampleTimeCoords 1 [[0, 0, 0], [9, 9, 7200], [7, 7, 7300]]
        = .ok [[0, 0, 0], [9, 9, 7200], [7, 7, 7300]] :=
  ⟨by decide,
   resampleTime_idempotent 1 [[0, 0, 0], [5, 5, 1700], [9, 9, 7200], [7, 7, 7300]]
     [[0, 0, 0], [9, 9, 7200], [7, 7, 7300]] (by decide)⟩

/-! ## Decoding and dispatch -/

theorem flatten_eq (coords : List Coord) (h : ∀ c ∈ coords, 2 ≤ c.length) :
    flatten coords = .ok (coords.map point2D) := by
  induction coords with
  | nil => rfl
  | cons c cs ih =>
    have hc : 2 ≤ c.length := h c (List.mem_cons_self _ _)
    have hcs := ih (fun x hx => h x (List.mem_cons_of_mem _ hx))
    match c, hc with
    | x :: y :: _, _ =>
      simp [flatten, index, hcs, point2D]

theorem parse3DTrajectory_of_empty (lib : Library) (s : Instance)
    (h1 : s.WKTTrajectory = "") (h2 : s.WKBHexTrajectory = "") :
    parse3DTrajectory lib s = .error .missingInput := by
  simp [parse3DTrajectory, h1, h2]

/-- C11, counterexample: the empty configuration has the metric `""`, which `Resample`
rejects before any trajectory is parsed: the error is the invalid-metric error, not the
missing-input error. -/
theorem Resample_empty_configuration_counterexample :
    ¬ (∀ (lib : Library) (s : Instance), s.WKTTrajectory = "" → s.WKBHexTrajectory = "" →
        Resample lib s = .error .missingInput) := by
  intro h
  have h' := h exampleLibrary ⟨"", "", "", 0⟩ rfl rfl
  simp [Resample] at h'

/-- C11 (amended): for every configuration in which both `WKTTrajectory` and
`WKBHexTrajectory` are empty, `Resample` fails and returns no output: with the
missing-input error when the metric is `"time"` or `"distance"`, and with the
invalid-metric error for every other metric, in particular for the empty configuration. -/
theorem Resample_missing_input (lib : Library) (s : Instance)
    (h1 : s.WKTTrajectory = "") (h2 : s.WKBHexTrajectory = "") :
    (s.Metric = "time" ∨ s.Metric = "distance" → Resample lib s = .error .missingInput) ∧
    (s.Metric ≠ "time" → s.Metric ≠ "distance" → Resample lib s = .error .invalidMetric) ∧
    Resample lib ⟨"", "", "", 0⟩ = .error .invalidMetric := by
  have hp := parse3DTrajectory_of_empty lib s h1 h2
  refine ⟨?_, ?_, ?_⟩
  · rintro (hm | hm)
    · simp [Resample, hm, resampleTime, hp]
    · simp [Resample, hm, resampleDistance, parse2DTrajectory, hp]
  · intro ht hd
    simp [Resample, ht, hd]
  · simp [Resample]

theorem Resample_missing_input_witness :
    Resample exampleLibrary ⟨"", "", "time", 2⟩ = .error .missingInput ∧
    Resample exampleLibrary ⟨"", "", "distance", 2⟩ = .error .missingInput ∧
    Resample exampleLibrary ⟨"", "", "speed", 2⟩ = .error .invalidMetric :=
  ⟨(Resample_missing_input exampleLibrary ⟨"", "", "time", 2⟩ rfl rfl).1 (Or.inl rfl),
   (Resample_missing_input exampleLibrary ⟨"", "", "distance", 2⟩ rfl rfl).1 (Or.inr rfl),
   (Resample_missing_input exampleLibrary ⟨"", "", "speed", 2⟩ rfl rfl).2.1
     (by decide) (by decide)⟩

/-- C12: for every configuration whose metric is neither `"time"` nor `"distance"`,
`Resample` returns the invalid-metric error and no output, whatever the trajectory fields
and the sample rate are; for the metric `"time"` it returns the result of `resampleTime`
and for the metric `"distance"` the result of `resampleDistance`. -/
theorem Resample_dispatch (lib : Library) (s : Instance) :
    (s.Metric ≠ "time" → s.Metric ≠ "distance" → Resample lib s = .error .invalidMetric) ∧
    (s.Metric = "time" → Resample lib s = resampleTime lib s) ∧
    (s.Metric = "distance" → Resample lib s = resampleDistance lib s) := by
  refine ⟨?_, ?_, ?_⟩
  · intro ht hd
    simp [Resample, ht, hd]
  · intro ht
    simp [Resample, ht]
  · intro hd
    simp [Resample, hd]

theorem Resample_dispatch_witness :
    Resample exampleLibrary ⟨"LINE", "", "speed", 1⟩ = .error .invalidMetric ∧
    Resample exampleLibrary ⟨"LINE", "", "time", 1⟩
      = resampleTime exampleLibrary ⟨"LINE", "", "time", 1⟩ ∧
    Resample exampleLibrary ⟨"LINE", "", "distance", 1⟩
      = resampleDistance exampleLibrary ⟨"LINE", "", "distance", 1⟩ :=
  ⟨(Resample_dispatch exampleLibrary ⟨"LINE", "", "speed", 1⟩).1 (by decide) (by decide),
   (Resample_dispatch exampleLibrary ⟨"LINE", "", "time", 1⟩).2.1 rfl,
   (Resample_dispatch exampleLibrary ⟨"LINE", "", "distance", 1⟩).2.2 rfl⟩

/-! ## Distance mode and flattening -/

/-- C14, counterexample: on a configuration whose trajectory decodes to a line string of
one position, `resampleDistance` returns the encoding of what the interpolation routine
gives (for one point and a positive distance, `resample.ToInterval` gives the line string
itself), and no error: the method has no check of the number of positions. -/
theorem resampleDistance_short_counterexample :
    ¬ (∀ (lib : Library) (s : Instance) (coords : List Coord),
        parse3DTrajectory lib s = .ok coords → coords.length < 2 →
        ∃ e, resampleDistance lib s = .error e) := by
  intro h
  obtain ⟨e, he⟩ := h exampleLibrary ⟨"ONE", "", "distance", 250⟩ [[5, 5, 0]]
    (by decide) (by decide)
  have hok : resampleDistance exampleLibrary ⟨"ONE", "", "distance", 250⟩ = .ok "1" := by
    decide
  rw [hok] at he
  cases he

/-- C14 (amended): `resampleDistance` has no check of the number of positions.  For every
configuration whose trajectory decodes, to any number of positions (fewer than 2
included), it hands the flattened positions and the sample rate to the external
interpolation routine: when the routine returns a line string, `resampleDistance` returns
its encoding and no error; it fails only when the routine itself panics (as
`resample.ToInterval` does on the line string without positions at a positive rate), and
then with that panic, not with an error value. -/
theorem resampleDistance_no_length_check (lib : Library) (s : Instance)
    (coords : List Coord) (h : parse3DTrajectory lib s = .ok coords)
    (h2 : ∀ c ∈ coords, 2 ≤ c.length) :
    (∀ sampled, lib.toInterval (coords.map point2D) s.SampleRate = .ok sampled →
      resampleDistance lib s = .ok (lib.marshalString sampled)) ∧
    (∀ e, lib.toInterval (coords.map point2D) s.SampleRate = .error e →
      resampleDistance lib s = .error e) := by
  have hflat : flatten coords = .ok (coords.map point2D) := flatten_eq coords h2
  have hparse : parse2DTrajectory lib s = .ok (coords.map point2D) := by
    unfold parse2DTrajectory
    rw [h]
    exact hflat
  constructor
  · intro sampled hs
    unfold resampleDistance
    rw [hparse]
    simp only
    rw [hs]
  · intro e he
    unfold resampleDistance
    rw [hparse]
    simp only
    rw [he]

theorem resampleDistance_no_length_check_witness :
    resampleDistance exampleLibrary ⟨"ONE", "", "distance", 250⟩
      = .ok (exampleLibrary.marshalString [(5, 5)]) ∧
    resampleDistance exampleLibrary ⟨"EMPTY", "", "distance", 250⟩ = .error .lenOutOfRange :=
  ⟨(resampleDistance_no_length_check exampleLibrary ⟨"ONE", "", "distance", 250⟩ [[5, 5, 0]]
      (by decide) (by decide)).1 [(5, 5)] (by decide),
   (resampleDistance_no_length_check exampleLibrary ⟨"EMPTY", "", "distance", 250⟩ []
      (by decide) (by decide)).2 .lenOutOfRange (by decide)⟩

/-- C15: whenever `parse3DTrajectory` succeeds with coordinates of at least 2 ordinates
each, `parse2DTrajectory` succeeds with as many points, in the same order, the i-th point
being the x and y of the i-th coordinate (further ordinates are discarded); whenever
`parse3DTrajectory` fails, `parse2DTrajectory` fails with the same error. -/
theorem parse2DTrajectory_flattens (lib : Library) (s : Instance) :
    (∀ coords, parse3DTrajectory lib s = .ok coords → (∀ c ∈ coords, 2 ≤ c.length) →
      ∃ points, parse2DTrajectory lib s = .ok points ∧
        points.length = coords.length ∧
        points = coords.map point2D ∧
        ∀ (i : Nat) (c : Coord), coords[i]? = some c →
          points[i]? = some (c.getD 0 0, c.getD 1 0)) ∧
    (∀ e, parse3DTrajectory lib s = .error e → parse2DTrajectory lib s = .error e) := by
  constructor
  · intro coords h h2
    refine ⟨coords.map point2D, ?_, by simp, rfl, ?_⟩
    · simp [parse2DTrajectory, h, flatten_eq coords h2]
    · intro i c hc
      rw [List.getElem?_map, hc]
      rfl
  · intro e h
    simp [parse2DTrajectory, h]

theorem parse2DTrajectory_flattens_witness :
    parse2DTrajectory exampleLibrary ⟨"LINE", "", "distance", 250⟩ = .ok [(0, 0), (1, 1)] ∧
    parse2DTrajectory exampleLibrary ⟨"", "", "distance", 250⟩ = .error .missingInput := by
  obtain ⟨h1, h2⟩ := parse2DTrajectory_flattens exampleLibrary ⟨"LINE", "", "distance", 250⟩
  obtain ⟨points, hp, _, he, _⟩ := h1 [[0, 0, 0], [1, 1, 3600]] (by decide) (by decide)
  refine ⟨?_, ?_⟩
  · rw [hp, he]; rfl
  · exact (parse2DTrajectory_flattens exampleLibrary ⟨"", "", "distance", 250⟩).2
      .missingInput (by decide)

/-! ## Both encodings supplied -/

/-- C20: when `WKTTrajectory` and `WKBHexTrajectory` are both non-empty,
`parse3DTrajectory` fails with the error of the WKB decoder if the WKB hex does not decode
(whatever the WKT is), and otherwise returns what it returns for the WKT text alone (the
decoded WKB geometry is discarded); and whenever the geometry it ends with (that of the
WKT when there is one, else that of the WKB) is not a line string, it fails with the
not-a-linestring error. -/
theorem parse3DTrajectory_both_encodings (lib : Library) (s : Instance) :
    (s.WKTTrajectory ≠ "" → s.WKBHexTrajectory ≠ "" →
      ∀ e, lib.ewkbhexDecode s.WKBHexTrajectory = .error e →
        parse3DTrajectory lib s = .error e) ∧
    (s.WKTTrajectory ≠ "" → s.WKBHexTrajectory ≠ "" →
      ∀ g, lib.ewkbhexDecode s.WKBHexTrajectory = .ok g →
        parse3DTrajectory lib s
          = parse3DTrajectory lib ⟨s.WKTTrajectory, "", s.Metric, s.SampleRate⟩) ∧
    (s.WKTTrajectory ≠ "" →
      (s.WKBHexTrajectory = "" ∨ ∃ g, lib.ewkbhexDecode s.WKBHexTrajectory = .ok g) →
      lib.wktUnmarshal s.WKTTrajectory = .ok .other →
        parse3DTrajectory lib s = .error .notLineString) ∧
    (s.WKTTrajectory = "" → s.WKBHexTrajectory ≠ "" →
      lib.ewkbhexDecode s.WKBHexTrajectory = .ok .other →
        parse3DTrajectory lib s = .error .notLineString) := by
  refine ⟨?_, ?_, ?_, ?_⟩
  · intro hwkt hwkb e he
    simp [parse3DTrajectory, hwkt, hwkb, he]
  · intro hwkt hwkb g hg
    simp [parse3DTrajectory, hwkt, hwkb, hg]
  · intro hwkt hwkb hother
    rcases hwkb with hwkb | ⟨g, hg⟩
    · simp [parse3DTrajectory, hwkt, hwkb, hother]
    · by_cases hb : s.WKBHexTrajectory = ""
      · simp [parse3DTrajectory, hwkt, hb, hother]
      · simp [parse3DTrajectory, hwkt, hb, hg, hother]
  · intro hwkt hwkb hother
    simp [parse3DTrajectory, hwkt, hwkb, hother]

theorem parse3DTrajectory_both_encodings_witness :
    parse3DTrajectory exampleLibrary ⟨"LINE", "broken", "time", 1⟩
      = .error (.external "syntax error") ∧
    parse3DTrajectory exampleLibrary ⟨"LINE", "POINT", "time", 1⟩
      = parse3DTrajectory exampleLibrary ⟨"LINE", "", "time", 1⟩ ∧
    parse3DTrajectory exampleLibrary ⟨"POINT", "LINE", "time", 1⟩ = .error .notLineString ∧
    parse3DTrajectory exampleLibrary ⟨"", "POINT", "time", 1⟩ = .error .notLineString :=
  ⟨(parse3DTrajectory_both_encodings exampleLibrary ⟨"LINE", "broken", "time", 1⟩).1
     (by decide) (by decide) _ rfl,
   (parse3DTrajectory_both_encodings exampleLibrary ⟨"LINE", "POINT", "time", 1⟩).2.1
     (by decide) (by decide) _ rfl,
   (parse3DTrajectory_both_encodings exampleLibrary ⟨"POINT", "LINE", "time", 1⟩).2.2.1
     (by decide) (Or.inr ⟨_, rfl⟩) rfl,
   (parse3DTrajectory_both_encodings exampleLibrary ⟨"", "POINT", "time", 1⟩).2.2.2
     rfl (by decide) rfl⟩

/-! ## Too-short input in time mode -/

/-- C13: `resampleTime` on a 3D trajectory of one position returns the too-few-points
error, but on a 3D trajectory without positions the index expression
`reducedCoords[len(reducedCoords)-1]` is out of range (a run-time panic), for every rate:
the `len(reducedCoords) <= 1` check comes after that access.  The same holds through
`parse3DTrajectory` for a configuration whose text decodes to the empty line string. -/
theorem resampleTime_short_input :
    (∀ rate : Int, resampleTimeCoords rate [] = .error .indexOutOfRange) ∧
    (∀ rate : Int, resampleTime exampleLibrary ⟨"EMPTY", "", "time", rate⟩
      = .error .indexOutOfRange) ∧
    (∀ rate x y t : Int, resampleTimeCoords rate [[x, y, t]] = .error .tooFewPoints) := by
  refine ⟨fun _ => rfl, fun _ => rfl, ?_⟩
  intro rate x y t
  simp [resampleTimeCoords, reducedWithLast, getTimeIntervals, collectTimes, index,
    sortTimes, mapSet, reduceCoords, findFirst, addLast, Equal]

/-! ## Safety of the index expressions -/

/-- C17: for every trajectory with at least one position, each position having at least 3
ordinates, and for every rate (zero and negative rates included), every interval returned
by `getTimeIntervals` is matched by some coordinate in the scan (`first` is never nil),
`reducedCoords` has exactly one entry per interval and is non-empty, and the accesses
`reducedCoords[len-1]` and `coords[len-1]` are in range, so that the endpoint step
completes. -/
theorem reducedCoords_in_range (rate : Int) (coords : List Coord) (hne : coords ≠ [])
    (h3 : ∀ c ∈ coords, 2 < c.length) :
    ∃ intervals sel,
      getTimeIntervals rate coords = .ok intervals ∧
      (∀ iv ∈ intervals, ∃ first, findFirst rate iv coords = .ok (some first)) ∧
      reduceCoords rate coords intervals [] = .ok sel ∧
      sel.map (bucket rate) = intervals ∧
      sel.length = intervals.length ∧ sel ≠ [] ∧
      (∃ lastReduced, index sel (sel.length - 1) = .ok lastReduced) ∧
      (∃ last, index coords (coords.length - 1) = .ok last) ∧
      ∃ r, reducedWithLast rate coords = .ok r := by
  obtain ⟨I, sel, lastSel, last, hrun⟩ := run_exists rate coords hne h3
  refine ⟨I, sel, hrun.intervals_eq, ?_, hrun.sel_eq, hrun.buckets, ?_, ?_, ⟨lastSel, ?_⟩,
    ⟨last, ?_⟩, ⟨_, hrun.withLast⟩⟩
  · intro iv hiv
    obtain ⟨c, hc, e⟩ := hrun.isIntervals.sound iv hiv
    obtain ⟨s, hs⟩ := firstIn_of_mem rate coords c hc
    rw [e] at hs
    exact ⟨s, by rw [findFirst_eq rate iv coords h3, hs]⟩
  · rw [← hrun.buckets, List.length_map]
  · intro e
    have := hrun.lastSel_eq
    rw [e] at this
    cases this
  · rw [index_last, hrun.lastSel_eq]
  · rw [index_last, hrun.last_eq]

theorem reducedCoords_in_range_witness :
    ∃ intervals sel,
      getTimeIntervals (-3) [[0, 0, 5], [1, 1, 3], [2, 2, 70]] = .ok intervals ∧
      (∀ iv ∈ intervals, ∃ first,
        findFirst (-3) iv [[0, 0, 5], [1, 1, 3], [2, 2, 70]] = .ok (some first)) ∧
      reduceCoords (-3) [[0, 0, 5], [1, 1, 3], [2, 2, 70]] intervals [] = .ok sel ∧
      sel.map (bucket (-3)) = intervals ∧
      sel.length = intervals.length ∧ sel ≠ [] ∧
      (∃ lastReduced, index sel (sel.length - 1) = .ok lastReduced) ∧
      (∃ last, index ([[0, 0, 5], [1, 1, 3], [2, 2, 70]] : List Coord)
        (([[0, 0, 5], [1, 1, 3], [2, 2, 70]] : List Coord).length - 1) = .ok last) ∧
      ∃ r, reducedWithLast (-3) [[0, 0, 5], [1, 1, 3], [2, 2, 70]] = .ok r :=
  reducedCoords_in_range (-3) [[0, 0, 5], [1, 1, 3], [2, 2, 70]] (by decide) (by decide)

/-! ## The intervals of `getTimeIntervals` -/

/-- C16, counterexample, in two parts.  At the rate 2562048, whose duration overflows
`int64` to a negative value, the buckets of `(0,0,0)` and `(1,1,1)` are the distinct times
`Unix 0` and `Unix 1` of one minute: the minute-precision key merges them and the list
returned is `[Unix 1]`, without the bucket of the first position.  At rate 2 the
timestamps 9223371974719178752 and 9223371974719179776 have the buckets `2^63-1` and
`-(2^63-1)` seconds (`time.Unix` wraps around for the second, `addSec` saturates), which get
one minute key: the list returned holds the second bucket only. -/
theorem getTimeIntervals_overflow_counterexample :
    (¬ (∀ (rate : Int) (coords : List Coord), 0 < rate → (∀ c ∈ coords, c.length = 3) →
        TimestampsInRange coords →
        ∃ intervals, getTimeIntervals rate coords = .ok intervals ∧
          ∀ c ∈ coords, bucket rate c ∈ intervals)) ∧
    (¬ (∀ (rate : Int) (coords : List Coord), 0 < rate → rate ≤ 2562047 →
        (∀ c ∈ coords, c.length = 3) →
        ∃ intervals, getTimeIntervals rate coords = .ok intervals ∧
          ∀ c ∈ coords, bucket rate c ∈ intervals)) := by
  constructor
  · intro h
    obtain ⟨I, hI, hall⟩ := h 2562048 [[0, 0, 0], [1, 1, 1]] (by decide) (by decide)
      (by decide)
    have e1 : getTimeIntervals 2562048 [[0, 0, 0], [1, 1, 1]] = .ok [Unix 1] := by decide
    rw [e1] at hI
    injection hI with hI
    subst hI
    exact absurd (hall [0, 0, 0] (by decide)) (by decide)
  · intro h
    obtain ⟨I, hI, hall⟩ := h 2 [[0, 0, 9223371974719178752], [1, 1, 9223371974719179776]]
      (by decide) (by decide) (by decide)
    have e1 : getTimeIntervals 2 [[0, 0, 9223371974719178752], [1, 1, 9223371974719179776]]
        = .ok [-9223372036854775807000000000] := by decide
    rw [e1] at hI
    injection hI with hI
    subst hI
    exact absurd (hall [0, 0, 9223371974719178752] (by decide)) (by decide)

/-- C16 (amended): for every trajectory whose positions have a timestamp of magnitude at
most `2^62` seconds and every rate with `0 < rate ≤ 2562047` (the rates whose duration fits
a `time.Duration`), `getTimeIntervals` returns a list that holds each distinct Time Bucket
of the input exactly once and no other value, in strictly ascending order, whatever the
order in which the values of the intermediate map are iterated. -/
theorem getTimeIntervals_distinct_buckets (rate : Int) (coords : List Coord)
    (h0 : 0 < rate) (h1 : rate ≤ 2562047) (h3 : ∀ c ∈ coords, 2 < c.length)
    (hts : TimestampsInRange coords) :
    ∃ times intervals,
      collectTimes rate coords [] = .ok times ∧
      getTimeIntervals rate coords = .ok intervals ∧
      intervals.Sorted (· < ·) ∧ intervals.Nodup ∧
      (∀ v, v ∈ intervals ↔ ∃ c ∈ coords, bucket rate c = v) ∧
      (∀ ret, List.Perm ret (times.map Prod.snd) → sortTimes ret = intervals) := by
  have hI := isIntervals_sortTimes rate coords
  refine ⟨_, _, collectTimes_eq rate coords [] h3, getTimeIntervals_eq rate coords h3,
    hI.sorted, hI.sorted.nodup, ?_, ?_⟩
  · intro v
    constructor
    · exact hI.sound v
    · rintro ⟨c, hc, rfl⟩
      exact hI.complete h0 h1 hts c hc
  · intro ret hp
    exact sortTimes_perm _ _ hp

theorem getTimeIntervals_distinct_buckets_witness :
    TimestampsInRange [[0, 0, 7300], [1, 1, 100], [2, 2, 7200], [3, 3, 0]] ∧
    ∃ times intervals,
      collectTimes 1 [[0, 0, 7300], [1, 1, 100], [2, 2, 7200], [3, 3, 0]] [] = .ok times ∧
      getTimeIntervals 1 [[0, 0, 7300], [1, 1, 100], [2, 2, 7200], [3, 3, 0]]
        = .ok intervals ∧
      intervals.Sorted (· < ·) ∧ intervals.Nodup ∧
      (∀ v, v ∈ intervals ↔
        ∃ c ∈ ([[0, 0, 7300], [1, 1, 100], [2, 2, 7200], [3, 3, 0]] : List Coord),
          bucket 1 c = v) ∧
      (∀ ret, List.Perm ret (times.map Prod.snd) → sortTimes ret = intervals) :=
  ⟨by decide,
   getTimeIntervals_distinct_buckets 1 [[0, 0, 7300], [1, 1, 100], [2, 2, 7200], [3, 3, 0]]
     (by decide) (by decide) (by decide) (by decide)⟩

/-! ## Bucket coverage -/

theorem Run.out_mem {rate : Int} {coords : List Coord} {I : List Time} {sel : List Coord}
    {lastSel last : Coord} (hrun : Run rate coords I sel lastSel last) (c : Coord)
    (hc : c ∈ (if Equal 3 lastSel last then sel else sel ++ [last])) : c ∈ coords := by
  have hlast : last ∈ coords := List.mem_of_getLast?_eq_some hrun.last_eq
  split at hc
  · exact (hrun.first c hc).1
  · rcases List.mem_append.mp hc with hc | hc
    · exact (hrun.first c hc).1
    · rw [List.mem_singleton.mp hc]; exact hlast

/-- C18, counterexample, in two parts.  At the rate 2562048, whose duration overflows
`int64`, the positions `(0,0,0), (1,1,1), (2,2,60)` have three distinct buckets; the first
two share a minute, the output is `(1,1,1), (2,2,60)` and the bucket `Unix 0` of the first
position is dropped.  At rate 2 the positions `(5,5,0)`, `(0,0,9223371974719178752)`,
`(1,1,9223371974719179776)` have three distinct buckets; those of the last two, `2^63-1`
and `-(2^63-1)` seconds, share a minute key, the output is the third, the first and again
the third position, and the bucket of the second position is dropped. -/
theorem bucket_coverage_overflow_counterexample :
    (¬ (∀ (rate : Int) (coords out : List Coord), 0 < rate → TimestampsInRange coords →
        resampleTimeCoords rate coords = .ok out →
        ∀ v, (∃ c ∈ coords, bucket rate c = v) → ∃ c ∈ out, bucket rate c = v)) ∧
    (¬ (∀ (rate : Int) (coords out : List Coord), 0 < rate → rate ≤ 2562047 →
        resampleTimeCoords rate coords = .ok out →
        ∀ v, (∃ c ∈ coords, bucket rate c = v) → ∃ c ∈ out, bucket rate c = v)) := by
  constructor
  · intro h
    obtain ⟨c, hc, e⟩ := h 2562048 [[0, 0, 0], [1, 1, 1], [2, 2, 60]] [[1, 1, 1], [2, 2, 60]]
      (by decide) (by decide) (by decide) (Unix 0) ⟨[0, 0, 0], by decide, by decide⟩
    simp only [List.mem_cons, List.mem_singleton, List.not_mem_nil, or_false] at hc
    rcases hc with rfl | rfl
    · exact absurd e (by decide)
    · exact absurd e (by decide)
  · intro h
    obtain ⟨c, hc, e⟩ := h 2
      [[5, 5, 0], [0, 0, 9223371974719178752], [1, 1, 9223371974719179776]]
      [[1, 1, 9223371974719179776], [5, 5, 0], [1, 1, 9223371974719179776]]
      (by decide) (by decide) (by decide) 9223372036854775807000000000
      ⟨[0, 0, 9223371974719178752], by decide, by decide⟩
    simp only [List.mem_cons, List.mem_singleton, List.not_mem_nil, or_false] at hc
    rcases hc with rfl | rfl | rfl
    · exact absurd e (by decide)
    · exact absurd e (by decide)
    · exact absurd e (by decide)

/-- C18 (amended): for every trajectory whose timestamps are of magnitude at most `2^62`
seconds and every rate with `0 < rate ≤ 2562047` (the rates whose duration fits a
`time.Duration`) for which `resampleTime` returns an output, every output position is a
position of the input, and the Time Buckets of the output positions are exactly the Time
Buckets of the input positions. -/
theorem bucket_coverage (rate : Int) (coords out : List Coord) (h0 : 0 < rate)
    (h1 : rate ≤ 2562047) (hts : TimestampsInRange coords)
    (h : resampleTimeCoords rate coords = .ok out) :
    (∀ c ∈ out, c ∈ coords) ∧
    ∀ v, (∃ c ∈ out, bucket rate c = v) ↔ (∃ c ∈ coords, bucket rate c = v) := by
  obtain ⟨I, sel, lastSel, last, hrun, hout, _, _⟩ := run_of_ok rate coords out h
  have hmem : ∀ c ∈ out, c ∈ coords := fun c hc => hrun.out_mem c (hout ▸ hc)
  refine ⟨hmem, ?_⟩
  intro v
  constructor
  · rintro ⟨c, hc, e⟩
    exact ⟨c, hmem c hc, e⟩
  · rintro ⟨c, hc, rfl⟩
    have hv : bucket rate c ∈ I := hrun.isIntervals.complete h0 h1 hts c hc
    rw [← hrun.buckets] at hv
    obtain ⟨s, hs, e⟩ := List.mem_map.mp hv
    refine ⟨s, ?_, e⟩
    rw [hout]
    split
    · exact hs
    · exact List.mem_append_left _ hs

theorem bucket_coverage_witness :
    (TimestampsInRange [[0, 0, 0], [5, 5, 1700], [9, 9, 7200], [7, 7, 7300]] ∧
      resampleTimeCoords 1 [[0, 0, 0], [5, 5, 1700], [9, 9, 7200], [7, 7, 7300]]
        = .ok [[0, 0, 0], [9, 9, 7200], [7, 7, 7300]]) ∧
      (∀ c ∈ ([[0, 0, 0], [9, 9, 7200], [7, 7, 7300]] : List Coord),
        c ∈ ([[0, 0, 0], [5, 5, 1700], [9, 9, 7200], [7, 7, 7300]] : List Coord)) ∧
      ∀ v, (∃ c ∈ ([[0, 0, 0], [9, 9, 7200], [7, 7, 7300]] : List Coord), bucket 1 c = v) ↔
        (∃ c ∈ ([[0, 0, 0], [5, 5, 1700], [9, 9, 7200], [7, 7, 7300]] : List Coord),
          bucket 1 c = v) :=
  ⟨⟨by decide, by decide⟩,
   bucket_coverage 1 [[0, 0, 0], [5, 5, 1700], [9, 9, 7200], [7, 7, 7300]]
     [[0, 0, 0], [9, 9, 7200], [7, 7, 7300]] (by decide) (by decide) (by decide) (by decide)⟩

/-! ## Start point and order of the output -/

theorem sorted_buckets (rate : Int) (coords : List Coord) (hr : TimestampsInRange coords)
    (hs : (coords.map timestamp).Sorted (· ≤ ·)) :
    (coords.map (bucket rate)).Sorted (· ≤ ·) := by
  have hp : (coords.map timestamp).Pairwise (· ≤ ·) := hs
  rw [List.pairwise_map] at hp
  show (coords.map (bucket rate)).Pairwise (· ≤ ·)
  rw [List.pairwise_map]
  refine hp.imp_of_mem ?_
  intro a b ha hb hab
  exact bucket_mono rate a b (hr a ha) (hr b hb) hab

/-- On an input whose buckets are non-decreasing along the sequence, the first positions
of strictly ascending intervals form a subsequence of the input. -/
theorem firsts_sublist (rate : Int) (I : List Time) (coords : List Coord)
    (hb : (coords.map (bucket rate)).Sorted (· ≤ ·)) (hI : I.Sorted (· < ·)) :
    List.Sublist (firsts rate coords I) coords := by
  induction I generalizing coords with
  | nil => exact List.nil_sublist _
  | cons iv ivs ih =>
    have hlt : ∀ iv' ∈ ivs, iv < iv' := (List.pairwise_cons.mp hI).1
    have hivs : ivs.Sorted (· < ·) := (List.pairwise_cons.mp hI).2
    cases hf : firstIn rate coords iv with
    | none =>
      have e : firsts rate coords (iv :: ivs) = firsts rate coords ivs := by
        simp [firsts, hf]
      rw [e]
      exact ih coords hb hivs
    | some s =>
      have hbs : bucket rate s = iv := (firstIn_some rate coords iv s hf).2
      unfold firstIn at hf
      obtain ⟨_, as, bs, e, _⟩ := List.find?_eq_some.mp hf
      subst e
      have hb' : ((as.map (bucket rate)) ++ (bucket rate s :: bs.map (bucket rate))).Pairwise
          (· ≤ ·) := by
        have := hb
        rw [List.map_append, List.map_cons] at this
        exact this
      obtain ⟨_, hsbs, hcross⟩ := List.pairwise_append.mp hb'
      have hbsS : (bs.map (bucket rate)).Sorted (· ≤ ·) := (List.pairwise_cons.mp hsbs).2
      have hrest : firsts rate (as ++ s :: bs) ivs = firsts rate bs ivs := by
        unfold firsts
        apply List.filterMap_congr
        intro iv' hiv'
        have hiv : iv < iv' := hlt iv' hiv'
        unfold firstIn
        have hnone : as.find? (fun c => decide (bucket rate c = iv')) = none := by
          rw [List.find?_eq_none]
          intro a ha
          have hle : bucket rate a ≤ bucket rate s :=
            hcross _ (List.mem_map.mpr ⟨a, ha, rfl⟩) _ (List.mem_cons_self _ _)
          have hne : bucket rate a ≠ iv' := by
            intro e
            rw [e, hbs] at hle
            exact absurd hiv (not_lt.mpr hle)
          simpa using hne
        have hs' : ¬ (decide (bucket rate s = iv') = true) := by
          have hne : bucket rate s ≠ iv' := by
            rw [hbs]; exact ne_of_lt hiv
          simpa using hne
        rw [List.find?_append, hnone, Option.none_or]
        exact List.find?_cons_of_neg _ hs'
      have e : firsts rate (as ++ s :: bs) (iv :: ivs) = s :: firsts rate bs ivs := by
        have hf' : firstIn rate (as ++ s :: bs) iv = some s := hf
        have : firsts rate (as ++ s :: bs) (iv :: ivs)
            = s :: firsts rate (as ++ s :: bs) ivs := by
          simp [firsts, hf']
        rw [this, hrest]
      rw [e]
      exact List.sublist_append_of_sublist_right (List.Sublist.cons₂ s (ih bs hbsS hivs))

/-- The positions selected by a run are the first positions of its intervals. -/
theorem Run.sel_firsts {rate : Int} {coords : List Coord} {I : List Time} {sel : List Coord}
    {lastSel last : Coord} (hrun : Run rate coords I sel lastSel last) :
    sel = firsts rate coords I :=
  (filterMap_of_first (firstIn rate coords) (bucket rate) sel I hrun.buckets
    (fun s hs => (hrun.first s hs).2)).symm

/-- On an input in chronological order, with timestamps of magnitude at most `2^62`, the
sequence after the endpoint step is a subsequence of the input, for every rate. -/
theorem Run.out_sublist {rate : Int} {coords : List Coord} {I : List Time}
    {sel : List Coord} {lastSel last : Coord} (hrun : Run rate coords I sel lastSel last)
    (hr : TimestampsInRange coords) (hs : (coords.map timestamp).Sorted (· ≤ ·)) :
    List.Sublist (if Equal 3 lastSel last then sel else sel ++ [last]) coords := by
  have hb := sorted_buckets rate coords hr hs
  by_cases he : Equal 3 lastSel last = true
  · rw [if_pos he, hrun.sel_firsts]
    exact firsts_sublist rate I coords hb hrun.isIntervals.sorted
  · rw [if_neg he]
    obtain ⟨ys, hys⟩ := List.getLast?_eq_some_iff.mp hrun.last_eq
    have hlsmem : lastSel ∈ sel := List.mem_of_getLast?_eq_some hrun.lastSel_eq
    have hlb := hrun.lastSel_bucket hr hs
    have hfirst : ∀ s ∈ sel, firstIn rate ys (bucket rate s) = some s := by
      intro s hsel
      have hf := (hrun.first s hsel).2
      rw [hys] at hf
      unfold firstIn at hf ⊢
      rw [List.find?_append] at hf
      cases hy : ys.find? (fun c => decide (bucket rate c = bucket rate s)) with
      | some x =>
        rw [hy] at hf
        exact hf
      | none =>
        exfalso
        rw [hy, Option.none_or] at hf
        have hsl : s = last := by
          have := List.mem_of_find?_eq_some hf
          exact List.mem_singleton.mp this
        have hsb : bucket rate s = bucket rate lastSel := by rw [hsl, hlb]
        have : s = lastSel := List.inj_on_of_nodup_map hrun.sel_nodup hsel hlsmem hsb
        rw [← this, hsl] at he
        exact he (Equal_self last)
    have hsel : sel = firsts rate ys I :=
      (filterMap_of_first (firstIn rate ys) (bucket rate) sel I hrun.buckets hfirst).symm
    have hbys : (ys.map (bucket rate)).Sorted (· ≤ ·) := by
      have : ((ys.map (bucket rate)) ++ [last].map (bucket rate)).Pairwise (· ≤ ·) := by
        have h := hb
        rw [hys, List.map_append] at h
        exact h
      exact (List.pairwise_append.mp this).1
    rw [hys, hsel]
    exact List.Sublist.append (firsts_sublist rate I ys hbys hrun.isIntervals.sorted)
      (List.Sublist.refl _)

/-- For a rate whose duration does not overflow and an input in chronological order, with
timestamps of magnitude at most `2^62`, the first selected position is the first position
of the input. -/
theorem Run.head_eq {rate : Int} {coords : List Coord} {I : List Time}
    {sel : List Coord} {lastSel last : Coord} (hrun : Run rate coords I sel lastSel last)
    (h0 : 0 < rate) (h1 : rate ≤ 2562047) (hr : TimestampsInRange coords)
    (hs : (coords.map timestamp).Sorted (· ≤ ·)) :
    sel.head? = coords.head? := by
  have hb := sorted_buckets rate coords hr hs
  match coords, hrun, hr, hb with
  | first :: rest, hrun, hr, hb =>
    have hmin : ∀ c ∈ first :: rest, bucket rate first ≤ bucket rate c := by
      intro c hc
      rcases List.mem_cons.mp hc with rfl | hc
      · exact le_refl _
      · rw [List.map_cons] at hb
        exact (List.pairwise_cons.mp hb).1 _ (List.mem_map.mpr ⟨c, hc, rfl⟩)
    have hin : bucket rate first ∈ I :=
      hrun.isIntervals.complete h0 h1 hr first (List.mem_cons_self _ _)
    match sel, hrun with
    | [], hrun =>
      have := hrun.lastSel_eq
      cases this
    | s0 :: sel', hrun =>
      have hs0 : s0 ∈ first :: rest := (hrun.first s0 (List.mem_cons_self _ _)).1
      have hI : I = bucket rate s0 :: sel'.map (bucket rate) := by
        rw [← hrun.buckets, List.map_cons]
      have hsorted := hrun.isIntervals.sorted
      rw [hI] at hsorted hin
      have hbe : bucket rate first = bucket rate s0 := by
        rcases List.mem_cons.mp hin with h | h
        · exact h
        · have hlt : bucket rate s0 < bucket rate first := (List.pairwise_cons.mp hsorted).1 _ h
          exact absurd hlt (not_lt.mpr (hmin s0 hs0))
      have hf := (hrun.first s0 (List.mem_cons_self _ _)).2
      unfold firstIn at hf
      rw [List.find?_cons_of_pos _ (by simpa using hbe)] at hf
      rw [List.head?_cons, List.head?_cons, hf]

/-- C19, counterexample, in two parts.  At the rate 2562048, whose duration overflows
`int64`, the chronological input `(0,0,0), (1,1,1), (2,2,60)` gives the output
`(1,1,1), (2,2,60)`, which does not start with the first position of the input.  At rate 1
the chronological input `(1,1,0), (0,0,9223372036854774784)` gives the output
`(0,0,9223372036854774784), (1,1,0), (0,0,9223372036854774784)`: `time.Unix` wraps around
for the second timestamp, whose bucket then lies before that of the first, and the output
neither starts with the first input position nor is a subsequence of the input. -/
theorem start_point_overflow_counterexample :
    (¬ (∀ (rate : Int) (coords out : List Coord), 0 < rate → TimestampsInRange coords →
        (coords.map timestamp).Sorted (· ≤ ·) →
        resampleTimeCoords rate coords = .ok out → out.head? = coords.head?)) ∧
    (¬ (∀ (rate : Int) (coords out : List Coord), 0 < rate → rate ≤ 2562047 →
        (coords.map timestamp).Sorted (· ≤ ·) →
        resampleTimeCoords rate coords = .ok out → out.head? = coords.head?)) ∧
    (¬ (∀ (rate : Int) (coords out : List Coord), 0 < rate → rate ≤ 2562047 →
        (coords.map timestamp).Sorted (· ≤ ·) →
        resampleTimeCoords rate coords = .ok out → List.Sublist out coords)) := by
  refine ⟨?_, ?_, ?_⟩
  · intro h
    have := h 2562048 [[0, 0, 0], [1, 1, 1], [2, 2, 60]] [[1, 1, 1], [2, 2, 60]]
      (by decide) (by decide) (by decide) (by decide)
    exact absurd this (by decide)
  · intro h
    have := h 1 [[1, 1, 0], [0, 0, 9223372036854774784]]
      [[0, 0, 9223372036854774784], [1, 1, 0], [0, 0, 9223372036854774784]]
      (by decide) (by decide) (by decide) (by decide)
    exact absurd this (by decide)
  · intro h
    have := h 1 [[1, 1, 0], [0, 0, 9223372036854774784]]
      [[0, 0, 9223372036854774784], [1, 1, 0], [0, 0, 9223372036854774784]]
      (by decide) (by decide) (by decide) (by decide)
    exact absurd this.length_le (by decide)

/-- C19 (amended): for every trajectory whose timestamps are non-decreasing along the
sequence and of magnitude at most `2^62` seconds, and every rate for which `resampleTime`
returns an output, the output is a subsequence of the input; and for the rates with
`0 < rate ≤ 2562047` (the rates whose duration fits a `time.Duration`) the first output
position is the first input position. -/
theorem start_point_preserved (rate : Int) (coords out : List Coord)
    (hts : TimestampsInRange coords)
    (hs : (coords.map timestamp).Sorted (· ≤ ·))
    (h : resampleTimeCoords rate coords = .ok out) :
    List.Sublist out coords ∧
    (0 < rate → rate ≤ 2562047 → out.head? = coords.head?) := by
  obtain ⟨I, sel, lastSel, last, hrun, hout, _, _⟩ := run_of_ok rate coords out h
  refine ⟨?_, ?_⟩
  · rw [hout]
    exact hrun.out_sublist hts hs
  · intro h0 h1
    have hhead := hrun.head_eq h0 h1 hts hs
    have hne : sel ≠ [] := by
      intro e
      have := hrun.lastSel_eq
      rw [e] at this
      cases this
    rw [hout, ← hhead]
    split
    · rfl
    · match sel, hne with
      | s0 :: sel', _ => rfl

theorem start_point_preserved_witness :
    (TimestampsInRange [[0, 0, 0], [5, 5, 1700], [9, 9, 7200], [7, 7, 7300]] ∧
      (([[0, 0, 0], [5, 5, 1700], [9, 9, 7200], [7, 7, 7300]] : List Coord).map
        timestamp).Sorted (· ≤ ·) ∧
      resampleTimeCoords 1 [[0, 0, 0], [5, 5, 1700], [9, 9, 7200], [7, 7, 7300]]
        = .ok [[0, 0, 0], [9, 9, 7200], [7, 7, 7300]]) ∧
      List.Sublist ([[0, 0, 0], [9, 9, 7200], [7, 7, 7300]] : List Coord)
        [[0, 0, 0], [5, 5, 1700], [9, 9, 7200], [7, 7, 7300]] ∧
      ((0 : Int) < 1 → (1 : Int) ≤ 2562047 →
        ([[0, 0, 0], [9, 9, 7200], [7, 7, 7300]] : List Coord).head?
          = ([[0, 0, 0], [5, 5, 1700], [9, 9, 7200], [7, 7, 7300]] : List Coord).head?) :=
  ⟨⟨by decide, by decide, by decide⟩,
   start_point_preserved 1 [[0, 0, 0], [5, 5, 1700], [9, 9, 7200], [7, 7, 7300]]
     [[0, 0, 0], [9, 9, 7200], [7, 7, 7300]] (by decide) (by decide) (by decide)⟩

end Sampler
